import Mathlib

/-!
Verification of the sanscript.js transliteration library (src/sanscript.js).

The JavaScript source is shallowly embedded: JS strings become `List Char`
(every character used by the library lies in the basic multilingual plane,
so one UTF-16 code unit is one `Char`); JS objects used as dictionaries
become insertion-ordered association lists; `undefined` becomes `none`;
a thrown exception becomes `Except.error`.
-/

set_option maxHeartbeats 2000000

namespace Sanscript

/-- A JavaScript string, as its list of UTF-16 code units. -/
abbrev Str := List Char

instance {e a : Type} [DecidableEq e] [DecidableEq a] : DecidableEq (Except e a) := fun a b =>
  match a, b with
  | Except.ok x, Except.ok y =>
    if h : x = y then isTrue (by rw [h]) else isFalse (fun hh => h (Except.ok.inj hh))
  | Except.error x, Except.error y =>
    if h : x = y then isTrue (by rw [h]) else isFalse (fun hh => h (Except.error.inj hh))
  | Except.ok _, Except.error _ => isFalse (fun hh => Except.noConfusion hh)
  | Except.error _, Except.ok _ => isFalse (fun hh => Except.noConfusion hh)

/-- JavaScript dictionary read `m[k]`: the value stored under `k`, or `none`
for `undefined`. -/
def aget (m : List (Str × Str)) (k : Str) : Option Str :=
  (m.find? (fun p => decide (p.1 = k))).map (fun p => p.2)

/-- JavaScript dictionary write `m[k] = v`: overwrite in place if the key is
present (keeping its insertion position), otherwise append. -/
def aset (m : List (Str × Str)) (k v : Str) : List (Str × Str) :=
  match m with
  | [] => [(k, v)]
  | (k0, v0) :: t => if k0 = k then (k, v) :: t else (k0, v0) :: aset t k v

/-- Lookup in a dictionary whose values are lists of strings (the
`alternates` and `accented_vowel_alternates` tables). -/
def agetL (m : List (Str × List Str)) (k : Str) : Option (List Str) :=
  (m.find? (fun p => decide (p.1 = k))).map (fun p => p.2)

/-- A scheme definition.  `groups` holds the character groups in insertion
order (`vowels`, `vowel_marks`, `consonants`, ...); the three metadata
properties that the `makeMap` group loop filters out by name
(`alternates`, `accented_vowel_alternates`, `isRomanScheme`) are stored as
separate fields, and `shortcuts` likewise ([] when the scheme has none,
matching the falsy check in the source). -/
structure Scheme where
  groups : List (Str × List (Str × Str))
  alternates : List (Str × List Str)
  accentedVowelAlternates : List (Str × List Str)
  isRomanScheme : Bool
  shortcuts : List (Str × Str)
deriving Repr, DecidableEq

/-- The process-wide scheme registry `Sanscript.schemes`. -/
abbrev Registry := List (Str × Scheme)

/-- Registry lookup `Sanscript.schemes[name]`. -/
def sget (schemes : Registry) (name : Str) : Option Scheme :=
  (schemes.find? (fun p => decide (p.1 = name))).map (fun p => p.2)

/-- Scheme group lookup `scheme[group]` for a group name. -/
def getGroup (s : Scheme) (group : Str) : Option (List (Str × Str)) :=
  (s.groups.find? (fun p => decide (p.1 = group))).map (fun p => p.2)

def gVowels : Str := "vowels".data

def gVowelMarks : Str := "vowel_marks".data

def gVirama : Str := "virama".data

def gZwj : Str := "zwj".data

def gSkip : Str := "skip".data

def gConsonants : Str := "consonants".data

def gExtraConsonants : Str := "extra_consonants".data

def gAccents : Str := "accents".data

def gYogavaahas : Str := "yogavaahas".data

/-- The canonical Devanagari virama key `"्"`. -/
def viramaKey : Str := "्".data

/-- The canonical Devanagari short-a key `"अ"`. -/
def aKey : Str := "अ".data

/-- The compiled map returned by `makeMap`.  `maxTokenLength` is `none` when
`tokenLengths` is empty (JavaScript `Math.max()` of no arguments is
`-Infinity`); `virama`, `toSchemeA` and `fromSchemeA` are `none` when the
corresponding key is absent (`undefined`). -/
structure CompiledMap where
  consonants : List (Str × Str)
  accents : List (Str × Str)
  fromRoman : Bool
  letters : List (Str × Str)
  marks : List (Str × Str)
  maxTokenLength : Option Nat
  toRoman : Bool
  virama : Option Str
  toSchemeA : Option Str
  fromSchemeA : Option Str
  fromName : Str
  toName : Str
deriving Repr, DecidableEq

/-- Accumulator of the `makeMap` group loop. -/
structure MMAcc where
  consonants : List (Str × Str)
  letters : List (Str × Str)
  marks : List (Str × Str)
  accents : List (Str × Str)
  tokenLengths : List Nat
deriving Repr, DecidableEq

def MMAcc.init : MMAcc := ⟨[], [], [], [], []⟩

/-- Body of the inner `for (const [key, F] of Object.entries(fromGroup))`
loop of `makeMap`. -/
def mmEntry (alternates : List (Str × List Str)) (group : Str)
    (toGroup : List (Str × Str)) (acc : MMAcc) (key F : Str) : MMAcc :=
  match aget toGroup key with
  | none => acc
  | some T0 =>
    let T := if T0 = [] ∧ ¬(group = gVirama ∨ group = gZwj ∨ group = gSkip) then F else T0
    let alts := (agetL alternates F).getD []
    let acc := { acc with
      tokenLengths := acc.tokenLengths ++ F.length :: alts.map List.length }
    if group = gVowelMarks ∨ group = gVirama then
      { acc with marks := alts.foldl (fun m a => aset m a T) (aset acc.marks F T) }
    else
      let acc := { acc with letters := alts.foldl (fun m a => aset m a T) (aset acc.letters F T) }
      let acc :=
        if group = gConsonants ∨ group = gExtraConsonants then
          { acc with consonants := alts.foldl (fun m a => aset m a T) (aset acc.consonants F T) }
        else acc
      if group = gAccents then
        { acc with accents := alts.foldl (fun m a => aset m a T) (aset acc.accents F T) }
      else acc

/-- Iteration of `mmEntry` over the entries of one group. -/
def mmEntries (alternates : List (Str × List Str)) (group : Str)
    (toGroup : List (Str × Str)) : MMAcc → List (Str × Str) → MMAcc
  | acc, [] => acc
  | acc, (key, F) :: rest =>
    mmEntries alternates group toGroup (mmEntry alternates group toGroup acc key F) rest

/-- The outer `for (const group in fromScheme)` loop of `makeMap`.  The
metadata properties filtered out by the source are not in `groups` at all
(see `Scheme`); a group absent from the target scheme is skipped. -/
def mmGroups (alternates : List (Str × List Str)) (toScheme : Scheme) :
    MMAcc → List (Str × List (Str × Str)) → MMAcc
  | acc, [] => acc
  | acc, (group, fromGroup) :: rest =>
    match getGroup toScheme group with
    | none => mmGroups alternates toScheme acc rest
    | some toGroup =>
      mmGroups alternates toScheme (mmEntries alternates group toGroup acc fromGroup) rest

def errTypeError : Str := "TypeError".data

def errUnknownScheme : Str := "TypeError: unknown scheme".data

/-- One synonym of the `accented_vowel_alternates` post-processing loop.
When the base vowel is absent from `letters` the source logs with
`console.error` and then crashes with a `TypeError` on
`letters[baseVowel].concat`; the crash is the `Except.error` case here
(note that the `marks` entry is written before the crash, but the partial
state is unobservable once the exception propagates). -/
def mmAccentedOne (acc : MMAcc) (base : Str) (syn : Str) : Except Str MMAcc :=
  let baseVowel := base.dropLast
  let sourceAccent : Str := match base.getLast? with
    | some c => [c]
    | none => []
  let targetAccent : Str :=
    match aget acc.accents sourceAccent with
    | some v => if v = [] then sourceAccent else v
    | none => sourceAccent
  let acc := { acc with
    marks := aset acc.marks syn (((aget acc.marks baseVowel).getD []) ++ targetAccent) }
  match aget acc.letters baseVowel with
  | none => Except.error errTypeError
  | some lv => Except.ok { acc with letters := aset acc.letters syn (lv ++ targetAccent) }

/-- The synonyms of one `accented_vowel_alternates` entry. -/
def mmAccentedSyns (base : Str) : Except Str MMAcc → List Str → Except Str MMAcc
  | e, [] => e
  | Except.error e, _ => Except.error e
  | Except.ok acc, syn :: rest => mmAccentedSyns base (mmAccentedOne acc base syn) rest

/-- The whole `accented_vowel_alternates` post-processing loop. -/
def mmAccentedAll : Except Str MMAcc → List (Str × List Str) → Except Str MMAcc
  | e, [] => e
  | Except.error e, _ => Except.error e
  | Except.ok acc, (base, syns) :: rest =>
    mmAccentedAll (mmAccentedSyns base (Except.ok acc) syns) rest

/-- JavaScript `Math.max.apply(Math, list)`: `none` plays `-Infinity`. -/
def maxOfList : List Nat → Option Nat
  | [] => none
  | n :: t =>
    match maxOfList t with
    | none => some n
    | some m => some (Nat.max n m)

/-- The map compiler `makeMap(from, to, options)` (the `options` parameter is
unused by the source function and omitted here).  An unknown scheme name
makes the source crash on its first property access; a target scheme
lacking a `virama` or `vowels` group (or a source lacking `vowels`) crashes
on the property accesses in the final object literal. -/
def makeMap (schemes : Registry) (fromName toName : Str) : Except Str CompiledMap :=
  match sget schemes fromName, sget schemes toName with
  | some fromScheme, some toScheme =>
    let alternates := fromScheme.alternates
    let acc0 := mmGroups alternates toScheme MMAcc.init fromScheme.groups
    match mmAccentedAll (Except.ok acc0) fromScheme.accentedVowelAlternates with
    | Except.error e => Except.error e
    | Except.ok acc =>
      match getGroup toScheme gVirama, getGroup toScheme gVowels, getGroup fromScheme gVowels with
      | some toVirama, some toVowels, some fromVowels =>
        Except.ok
          { consonants := acc.consonants
            accents := acc.accents
            fromRoman := fromScheme.isRomanScheme
            letters := acc.letters
            marks := acc.marks
            maxTokenLength := maxOfList acc.tokenLengths
            toRoman := toScheme.isRomanScheme
            virama := aget toVirama viramaKey
            toSchemeA := aget toVowels aKey
            fromSchemeA := aget fromVowels aKey
            fromName := fromName
            toName := toName }
      | _, _, _ => Except.error errTypeError
  | _, _ => Except.error errUnknownScheme


/-! ## Transliteration options -/

/-- The merged option set (`Sanscript.defaults` plus caller overrides). -/
structure Options where
  skip_sgml : Bool
  syncope : Bool
  preferred_alternates : List (Str × List (Str × Str))
  split_aksara : Bool
  move_consonant : Bool
deriving Repr, DecidableEq

/-- The option object supplied by a caller: each defaulted key may be absent. -/
structure OptionsIn where
  skip_sgml : Option Bool
  syncope : Option Bool
  preferred_alternates : Option (List (Str × List (Str × Str)))
  split_aksara : Option Bool
  move_consonant : Option Bool
deriving Repr, DecidableEq

/-- `Sanscript.defaults`. -/
def defaults : Options := ⟨false, false, [], false, false⟩

def OptionsIn.empty : OptionsIn := ⟨none, none, none, none, none⟩

/-! ## The Roman engine (`transliterateRoman`) -/

/-- Per-step record of the Roman engine: the token consumed from the head of
the token buffer, whether the step pushed the virama, and everything the
step pushed onto `buf` (in push order). -/
structure RomEvent where
  token : Str
  viramaB : Bool
  emits : List Str
deriving Repr, DecidableEq

/-- Roman engine state carried across loop iterations. -/
structure RomState where
  hadConsonant : Bool
  skippingSGML : Bool
  toggledTrans : Bool
deriving Repr, DecidableEq

def RomState.init : RomState := ⟨false, false, false⟩

/-- Pushes of the matched-letter branch (lines 414-431 of the source):
result is (pushes, virama-pushed, new hadConsonant).  `marks[token]` is
tested for truthiness, `map.fromSchemeA` with `!==`; an `undefined` virama
pushed into `buf` contributes nothing to the final `join("")`, hence
`getD []`. -/
def romLetterEmit (m : CompiledMap) (token tempLetter : Str) (hadC : Bool) :
    List Str × Bool × Bool :=
  if m.toRoman then ([tempLetter], false, hadC)
  else
    let newHad := (aget m.consonants token).isSome
    let markOpt := aget m.marks token
    let markTruthy : Bool := match markOpt with
      | some mk => decide (¬mk = [])
      | none => false
    if hadC then
      if markTruthy then ([markOpt.getD []], false, newHad)
      else if decide (¬m.fromSchemeA = some token) then
        ([m.virama.getD [], tempLetter], true, newHad)
      else ([], false, newHad)
    else ([tempLetter], false, newHad)

/-- Pushes of the unmatched branch (lines 434-442): result is
(pushes, virama-pushed). -/
def romFallbackEmit (m : CompiledMap) (opts : Options) (token : Str) (hadC : Bool) :
    List Str × Bool :=
  if hadC then
    if opts.syncope then ([token], false)
    else ([m.virama.getD [], token], true)
  else ([token], false)

/-- The inner longest-match loop `for (let j = 0; j < maxTokenLength; j++)`.
The first argument counts the remaining candidate lengths, so it starts at
`maxTokenLength` and the candidate token is `buffer.take count`
(`tokenBuffer.substr(0, maxTokenLength - j)`).  Returns the new token
buffer, the new state and the event recorded for this outer iteration
(empty when the loop ran out without consuming, which happens only when
`maxTokenLength` is 0 or `-Infinity`). -/
def romInner (m : CompiledMap) (opts : Options) :
    Nat → Str → RomState → Str × RomState × List RomEvent
  | 0, buffer, st => (buffer, st, [])
  | c + 1, buffer, st =>
    let token := buffer.take (c + 1)
    let st1 :=
      if st.skippingSGML then { st with skippingSGML := decide (¬token = ['>']) }
      else if token = ['<'] then { st with skippingSGML := opts.skip_sgml }
      else st
    if st.skippingSGML = false ∧ token = ['#', '#'] then
      (buffer.drop 2, { st with toggledTrans := !st.toggledTrans }, [⟨token, false, []⟩])
    else
      let skippingTrans := st1.skippingSGML || st1.toggledTrans
      match aget m.letters token, skippingTrans with
      | some tempLetter, false =>
        let out := romLetterEmit m token tempLetter st1.hadConsonant
        (buffer.drop (c + 1), { st1 with hadConsonant := out.2.2 }, [⟨token, out.2.1, out.1⟩])
      | _, _ =>
        if c = 0 then
          let out := romFallbackEmit m opts token st1.hadConsonant
          (buffer.drop 1, { st1 with hadConsonant := false }, [⟨token, out.2, out.1⟩])
        else romInner m opts c buffer st1

/-- The outer loop `for (let i = 0; (L = data.charAt(i)) || tokenBuffer; i++)`,
with fuel (the loop provably terminates: see the fuel-sufficiency theorem).
`rest` is `data` from position `i` on.  When the buffer is not yet full and
input remains, the head of `rest` is appended (`tokenBuffer += L`) and, if
the buffer is still not full, the iteration `continue`s; otherwise the inner
loop runs.  The trailing `rest.tail` in the no-fill case is the `i++` of an
iteration that did not consume `L`, reachable only when `maxTokenLength`
is 0 or `-Infinity`. -/
def romLoop (m : CompiledMap) (opts : Options) (maxN : Nat) :
    Nat → Str → Str → RomState → Option (List RomEvent × RomState)
  | 0, _, _, _ => none
  | fuel + 1, rest, buffer, st =>
    if rest = [] ∧ buffer = [] then some ([], st)
    else
      match rest, decide (buffer.length < maxN) with
      | c :: rest2, true =>
        let buffer2 := buffer ++ [c]
        if buffer.length + 1 < maxN then
          romLoop m opts maxN fuel rest2 buffer2 st
        else
          let out := romInner m opts maxN buffer2 st
          (romLoop m opts maxN fuel rest2 out.1 out.2.1).map
            (fun o => (out.2.2 ++ o.1, o.2))
      | _, _ =>
        let out := romInner m opts maxN buffer st
        (romLoop m opts maxN fuel rest.tail out.1 out.2.1).map
          (fun o => (out.2.2 ++ o.1, o.2))

/-- Run the Roman engine loop on `data` from the initial state, with enough
fuel (`2 * |data| + 1` iterations always suffice). -/
def romRun (m : CompiledMap) (opts : Options) (data : Str) :
    Option (List RomEvent × RomState) :=
  romLoop m opts (m.maxTokenLength.getD 0) (2 * data.length + 1) data [] RomState.init

/-- All pushes of a run, in order (the contents of `buf`). -/
def flattenEmits (evs : List RomEvent) : List Str :=
  (evs.map RomEvent.emits).flatten

/-- Concatenation of value strings, `Object.values(g).flatten("")`. -/
def joinVals (g : List (Str × Str)) : Str :=
  (g.map Prod.snd).flatten

/-- Global replacement of the two-character pattern `([cls1])([cls2])` by
`"$2$1"`: adjacent pairs are swapped, scanning left to right without
overlap. -/
def swapAdj (cls1 cls2 : List Char) : Str → Str
  | [] => []
  | [c] => [c]
  | c1 :: c2 :: rest =>
    if c1 ∈ cls1 ∧ c2 ∈ cls2 then c2 :: c1 :: swapAdj cls1 cls2 rest
    else c1 :: swapAdj cls1 cls2 (c2 :: rest)

/-- The Roman engine `transliterateRoman(data, map, options)`.  After the
loop a trailing virama is pushed for a final consonant (unless `syncope`),
and for a Brahmic target with accents every `(accent)(yogavaaha)` pair of
the result is swapped (the source builds a RegExp from `map.accents` values
and the target scheme's `yogavaahas` values; a missing target scheme or
`yogavaahas` group would crash `Object.values`). -/
def transliterateRoman (schemes : Registry) (data : Str) (m : CompiledMap)
    (opts : Options) : Except Str Str :=
  match romRun m opts data with
  | none => Except.error "outOfFuel".data
  | some (evs, st) =>
    let tail : List Str :=
      if st.hadConsonant ∧ opts.syncope = false then [m.virama.getD []] else []
    let result := (flattenEmits evs ++ tail).flatten
    if m.toRoman = false ∧ ¬m.accents = [] then
      match sget schemes m.toName with
      | none => Except.error errTypeError
      | some toScheme =>
        match getGroup toScheme gYogavaahas with
        | none => Except.error errTypeError
        | some yoga => Except.ok (swapAdj (joinVals m.accents) (joinVals yoga) result)
    else Except.ok result

/-! ## The Brahmic engine (`transliterateBrahmic`) -/

/-- Brahmic engine state. -/
structure BrahState where
  danglingHash : Bool
  hadRomanConsonant : Bool
  skippingTrans : Bool
deriving Repr, DecidableEq

def BrahState.init : BrahState := ⟨false, false, false⟩

/-- The per-character loop of `transliterateBrahmic` (lines 487-531),
returning the list of pushes.  `marks[L]` is compared with `!== undefined`
but `letters[L]` is tested for truthiness, so an empty-string letter falls
through to pushing `L` itself. -/
def brahLoop (m : CompiledMap) : Str → BrahState → List Str
  | [], st => if st.hadRomanConsonant then [m.toSchemeA.getD []] else []
  | c :: rest, st =>
    if c = '#' then
      let st1 :=
        if st.danglingHash then
          { st with skippingTrans := !st.skippingTrans, danglingHash := false }
        else { st with danglingHash := true }
      let emits : List Str := if st.hadRomanConsonant then [m.toSchemeA.getD []] else []
      emits ++ brahLoop m rest { st1 with hadRomanConsonant := false }
    else if st.skippingTrans then
      [c] :: brahLoop m rest st
    else
      match aget m.marks [c] with
      | some temp => temp :: brahLoop m rest { st with hadRomanConsonant := false }
      | none =>
        let e1 : List Str := if st.danglingHash then [['#']] else []
        let st1 := { st with danglingHash := false }
        let e2 : List Str := if st1.hadRomanConsonant then e1 ++ [m.toSchemeA.getD []] else e1
        let st2 := { st1 with hadRomanConsonant := false }
        match aget m.letters [c] with
        | some temp =>
          if temp = [] then (e2 ++ [[c]]) ++ brahLoop m rest st2
          else
            (e2 ++ [temp]) ++
              brahLoop m rest
                { st2 with hadRomanConsonant := m.toRoman && (aget m.consonants [c]).isSome }
        | none => (e2 ++ [[c]]) ++ brahLoop m rest st2

/-- The Brahmic engine `transliterateBrahmic(data, map, options)` (the
`options` parameter is unused by the source).  For a Roman target with
accents, every `(yogavaaha)(accent)` pair of the input is first swapped. -/
def transliterateBrahmic (schemes : Registry) (data : Str) (m : CompiledMap) :
    Except Str Str :=
  if m.toRoman = true ∧ ¬m.accents = [] then
    match sget schemes m.toName with
    | none => Except.error errTypeError
    | some toScheme =>
      match getGroup toScheme gYogavaahas with
      | none => Except.error errTypeError
      | some yoga =>
        Except.ok
          ((brahLoop m (swapAdj (joinVals yoga) (joinVals m.accents) data) BrahState.init).flatten)
  else Except.ok ((brahLoop m data BrahState.init).flatten)

/-! ## The scheme detector (`Sanscript.detect`) -/

/-- The `DETECTION_PATTERNS.SCHEMES` table: scheme names with the start code
point of their Unicode block (`none` for Roman schemes). -/
def SCHEMES : List (Str × Option Nat) :=
  [("Bengali".data, some 0x0980), ("Devanagari".data, some 0x0900),
   ("Gujarati".data, some 0x0a80), ("Gurmukhi".data, some 0x0a00),
   ("Kannada".data, some 0x0c80), ("Malayalam".data, some 0x0d00),
   ("Oriya".data, some 0x0b00), ("Tamil".data, some 0x0b80),
   ("Telugu".data, some 0x0c00), ("HK".data, none), ("IAST".data, none),
   ("ITRANS".data, none), ("Kolkata".data, none), ("SLP1".data, none),
   ("Velthuis".data, none)]

/-- Insertion into a list kept in descending order of code point (the result
of the source's `sort((x, y) => y[1] - x[1])`; the start points are
pairwise distinct, so the sorted list is unique). -/
def insertDesc (p : Str × Nat) : List (Str × Nat) → List (Str × Nat)
  | [] => [p]
  | q :: rest => if q.2 ≤ p.2 then p :: q :: rest else q :: insertDesc p rest

/-- The `BLOCKS` list of `Sanscript.detect`: named blocks, descending. -/
def BLOCKS : List (Str × Nat) :=
  (SCHEMES.filterMap (fun p => p.2.map (fun n => (p.1, n)))).foldr insertDesc []

/-- The inner `for (let j = 0; ...)` loop: first block whose start is at most
the code point. -/
def findBlock (code : Nat) : List (Str × Nat) → Option Str
  | [] => none
  | (name, start) :: rest => if start ≤ code then some name else findBlock code rest

/-- The character scan of `Sanscript.detect`: the first character in the
Brahmic code-point range decides the result (if no block matches, the outer
loop continues, which cannot happen since Devanagari starts the range). -/
def detectBrahmic : Str → Option Str
  | [] => none
  | c :: rest =>
    if 0x0900 ≤ c.toNat ∧ c.toNat ≤ 0x0d7f then
      match findBlock c.toNat BLOCKS with
      | some name => some name
      | none => detectBrahmic rest
    else detectBrahmic rest

/-- JavaScript `text.includes(pat)` / an unanchored literal regex test. -/
def strIncludes (pat : Str) : Str → Bool
  | [] => decide (pat = [])
  | c :: rest => pat.isPrefixOf (c :: rest) || strIncludes pat rest

/-- Test for a character of the class anywhere in the text. -/
def anyCharIn (cls : List Char) (text : Str) : Bool :=
  text.any (fun c => decide (c ∈ cls))

/-- Test for an adjacent character pair satisfying `f` anywhere in the text. -/
def anyPair (f : Char → Char → Bool) : Str → Bool
  | [] => false
  | [_] => false
  | a :: b :: rest => f a b || anyPair f (b :: rest)

def iastKolkataChars : List Char := "āīūṛṝḷḹēōṃḥṅñṭḍṇśṣḻ".data

def kolkataOnlyChars : List Char := "ēō".data

/-- The `RE_ITRANS_ONLY` alternation, as its list of literal alternatives. -/
def itransOnlySubs : List Str :=
  ["ee".data, "oo".data, "^i".data, "^I".data, "RRi".data, "RRI".data,
   "Li".data, "LI".data, "~N".data, "N^".data, "Ch".data, "chh".data,
   "JN".data, "sh".data, "Sh".data, ".a".data]

def slp1OnlyChars : List Char := "fFxXEOCYwWqQPB".data

def slp1Subs : List Str :=
  ["kz".data, "Nk".data, "Ng".data, "tT".data, "dD".data, "Sc".data,
   "Sn".data, "Gy".data, "Gr".data]

def slp1RChars : List Char := "aAiIuUfFxXeEoO".data

/-- JavaScript `\w` (word character). -/
def isWordChar (c : Char) : Bool :=
  c.isAlpha || c.isDigit || decide (c = '_')

def velthuisDotChars : List Char := "mhnrltds".data

def reIastOrKolkata (text : Str) : Bool := anyCharIn iastKolkataChars text

def reKolkataOnly (text : Str) : Bool := anyCharIn kolkataOnlyChars text

def reItransOnly (text : Str) : Bool := itransOnlySubs.any (fun p => strIncludes p text)

/-- The `RE_SLP1_ONLY` regex: the character class, the literal bigrams, a
vowel followed by `R`, `Gy`/`Gr`, and `G` at the start or after a non-word
character. -/
def reSlp1Only (text : Str) : Bool :=
  anyCharIn slp1OnlyChars text ||
  slp1Subs.any (fun p => strIncludes p text) ||
  anyPair (fun a b => decide (a ∈ slp1RChars) && decide (b = 'R')) text ||
  (match text with
   | c :: _ => decide (c = 'G')
   | [] => false) ||
  anyPair (fun a b => !isWordChar a && decide (b = 'G')) text

def reVelthuisOnly (text : Str) : Bool :=
  anyPair (fun a b => decide (a = '.') && decide (b ∈ velthuisDotChars)) text ||
  strIncludes "\"n".data text || strIncludes "~s".data text

def reItransOrVelthuis (text : Str) : Bool :=
  ["aa".data, "ii".data, "uu".data, "~n".data].any (fun p => strIncludes p text)

/-- The scheme detector `Sanscript.detect(text)`. -/
def detect (text : Str) : Str :=
  match detectBrahmic text with
  | some name => name
  | none =>
    if reIastOrKolkata text then
      if reKolkataOnly text then "Kolkata".data else "IAST".data
    else if reItransOnly text then "ITRANS".data
    else if reSlp1Only text then "SLP1".data
    else if reVelthuisOnly text then "Velthuis".data
    else if reItransOrVelthuis text then "ITRANS".data
    else "HK".data

/-! ## String rewriting helpers used by `Sanscript.t` -/

/-- JavaScript `s.replace(pat, rep)` with string arguments: replaces only the
first occurrence (the empty pattern matches at position 0). -/
def replaceFirst (pat rep : Str) : Str → Str
  | [] => if pat = [] then rep else []
  | c :: rest =>
    if pat.isPrefixOf (c :: rest) then rep ++ (c :: rest).drop pat.length
    else c :: replaceFirst pat rep rest

/-- JavaScript `s.split("").join(rep)`: `rep` between consecutive characters. -/
def interJoin (rep : Str) : Str → Str
  | [] => []
  | [c] => [c]
  | c :: rest => c :: (rep ++ interJoin rep rest)

/-- Replacement of every occurrence of the nonempty pattern `p0 :: pr`,
scanning left to right without overlap.  The first argument is fuel (kept
structural so that concrete runs reduce in the kernel); every step consumes
at least one character, so fuel `s.length` never runs out. -/
def replaceAllNE (p0 : Char) (pr rep : Str) : Nat → Str → Str
  | 0, s => s
  | _ + 1, [] => []
  | fuel + 1, c :: rest =>
    if (p0 :: pr).isPrefixOf (c :: rest) then
      rep ++ replaceAllNE p0 pr rep fuel (rest.drop pr.length)
    else c :: replaceAllNE p0 pr rep fuel rest

/-- JavaScript `s.split(pat).join(rep)`: global literal replacement. -/
def splitJoin (pat rep s : Str) : Str :=
  match pat with
  | [] => interJoin rep s
  | p0 :: pr => replaceAllNE p0 pr rep s.length s

def lbrace : Char := Char.ofNat 123

def rbrace : Char := Char.ofNat 125

def aposChar : Char := Char.ofNat 39

def btickChar : Char := Char.ofNat 96

/-- The ITRANS escape pattern, the five characters of the source literal
(an opening brace, a backslash, `m`, `+`, a closing brace). -/
def itransMPat : Str := [lbrace, '\\', 'm', '+', rbrace]

/-- The third ITRANS preprocessing step: rewrite a backslash followed by a
character other than apostrophe, backtick and underscore (or by nothing) to
a `##`-wrapped character. -/
def itransSlash (s : Str) : Str :=
  match s with
  | [] => []
  | ['\\'] => ['#', '#', '#', '#']
  | '\\' :: c :: t =>
    if c = aposChar ∨ c = btickChar ∨ c = '_' then '\\' :: itransSlash (c :: t)
    else '#' :: '#' :: c :: '#' :: '#' :: itransSlash t
  | c :: rest => c :: itransSlash rest

/-- ITRANS preprocessing of `Sanscript.t` (lines 735-737). -/
def itransPre (data : Str) : Str :=
  itransSlash (splitJoin (".h".data) [] (splitJoin itransMPat ".h.N".data data))

/-- The `(^|[^#\\])[,?!:]` rewrite of IAST→Devanagari preprocessing; the
flag records whether scanning is still at the string start. -/
def altPuncFix : Bool → Str → Str
  | _, [] => []
  | atStart, c :: rest =>
    if atStart ∧ c ∈ [',', '?', '!', ':'] then '|' :: altPuncFix false rest
    else
      match rest with
      | p :: t2 =>
        if ¬(c = '#' ∨ c = '\\') ∧ p ∈ [',', '?', '!', ':'] then
          c :: '|' :: altPuncFix false t2
        else c :: altPuncFix false (p :: t2)
      | [] => [c]

/-- Avagraha normalization `[‘’] → '`. -/
def avagrahaFix (s : Str) : Str :=
  s.map (fun c => if c = '‘' ∨ c = '’' then aposChar else c)

/-- Protection of a dot between digits: each `d.e` match becomes `d##.##e`. -/
def numDotFix : Str → Str
  | d :: '.' :: e :: rest =>
    if d.isDigit ∧ e.isDigit then
      d :: '#' :: '#' :: '.' :: '#' :: '#' :: e :: numDotFix rest
    else d :: numDotFix ('.' :: e :: rest)
  | c :: rest => c :: numDotFix rest
  | [] => []

/-- Ligature removal `[-] → ""`. -/
def stripDashChars (s : Str) : Str :=
  s.filter (fun c => decide (¬c = '-'))

/-- Global rewrite of `([cls]+)([sup])` to `"$2$1"`: a maximal class run
immediately followed by a superscript is put after it. -/
def swapRunSup (cls sup : List Char) (s : Str) : Str :=
  match s with
  | [] => []
  | c :: rest =>
    if decide (c ∈ cls) then
      let r := (c :: rest).takeWhile (fun x => decide (x ∈ cls))
      match h : (c :: rest).dropWhile (fun x => decide (x ∈ cls)) with
      | s2 :: t2 =>
        if decide (s2 ∈ sup) then (s2 :: r) ++ swapRunSup cls sup t2
        else r ++ swapRunSup cls sup (s2 :: t2)
      | [] => r
    else c :: swapRunSup cls sup rest
termination_by s.length
decreasing_by
  all_goals simp_all
  · have h2 : (List.dropWhile (fun x => decide (x ∈ cls)) rest).length ≤ rest.length :=
      (List.dropWhile_sublist _).length_le
    rw [h] at h2
    simp at h2
    omega
  · have h2 : (List.dropWhile (fun x => decide (x ∈ cls)) rest).length ≤ rest.length :=
      (List.dropWhile_sublist _).length_le
    rw [h] at h2
    simp at h2
    omega

/-- Global rewrite of `([sup])([cls]+)` to `"$2$1"`: a superscript
immediately followed by a maximal class run is put after it. -/
def swapSupRun (sup cls : List Char) (s : Str) : Str :=
  match s with
  | [] => []
  | c :: rest =>
    if decide (c ∈ sup) then
      let r := rest.takeWhile (fun x => decide (x ∈ cls))
      if r = [] then c :: swapSupRun sup cls rest
      else (r ++ [c]) ++ swapSupRun sup cls (rest.dropWhile (fun x => decide (x ∈ cls)))
    else c :: swapSupRun sup cls rest
termination_by s.length
decreasing_by
  · simp
  · have h2 : (rest.dropWhile (fun x => decide (x ∈ cls))).length ≤ rest.length :=
      (List.dropWhile_sublist _).length_le
    simp only [List.length_cons]
    omega
  · simp

/-! ## The top-level dispatcher (`Sanscript.t`) -/

/-- The single-slot compiled-map cache. -/
structure Cache where
  fromName : Str
  toName : Str
  options : Options
  map : CompiledMap
deriving Repr, DecidableEq

/-- What a call of `Sanscript.t` produces: its return value (or the thrown
exception), the cache slot after the call, and the caller's option object
after the call (`none` when the caller passed `null`; the source merges the
defaults into that same object in place). -/
structure TOut where
  result : Except Str Str
  cache : Option Cache
  postOptions : Option OptionsIn
deriving Repr

/-- The option-merging loop of `Sanscript.t`: for each key of
`Sanscript.defaults`, the caller's value if the key is present, the default
otherwise. -/
def mergeOptions (o : OptionsIn) : Options :=
  { skip_sgml := o.skip_sgml.getD defaults.skip_sgml
    syncope := o.syncope.getD defaults.syncope
    preferred_alternates := o.preferred_alternates.getD defaults.preferred_alternates
    split_aksara := o.split_aksara.getD defaults.split_aksara
    move_consonant := o.move_consonant.getD defaults.move_consonant }

/-- The caller's option object after the merging loop wrote every default
key into it. -/
def writeBack (o : Options) : OptionsIn :=
  ⟨some o.skip_sgml, some o.syncope, some o.preferred_alternates,
   some o.split_aksara, some o.move_consonant⟩

/-- JavaScript `s.toLowerCase()` for the ASCII scheme names. -/
def lowerStr (s : Str) : Str :=
  s.map Char.toLower

/-- The from-shortcuts pass (lines 753-762): for each (key, shortcut) pair,
if the shortcut occurs in the key then the first occurrence of `key` is
replaced by `shortcut`, and then the first occurrence of `shortcut` is
replaced by `key` (JavaScript `replace` with a string pattern rewrites only
the first occurrence). -/
def applyFromShortcuts (shortcuts : List (Str × Str)) (data : Str) : Str :=
  shortcuts.foldl
    (fun d kv =>
      let d1 := if strIncludes kv.2 kv.1 then replaceFirst kv.1 kv.2 d else d
      replaceFirst kv.2 kv.1 d1)
    data

/-- The to-shortcuts pass (lines 771-781), symmetric to
`applyFromShortcuts`. -/
def applyToShortcuts (shortcuts : List (Str × Str)) (result : Str) : Str :=
  shortcuts.foldl
    (fun d kv =>
      let d1 := if strIncludes kv.1 kv.2 then replaceFirst kv.2 kv.1 d else d
      replaceFirst kv.1 kv.2 d1)
    result

/-- Generic lookup for the `preferred_alternates` table. -/
def lookupPA (m : List (Str × List (Str × Str))) (k : Str) : Option (List (Str × Str)) :=
  (m.find? (fun p => decide (p.1 = k))).map (fun p => p.2)

/-- The `preferred_alternates` postprocessing (lines 787-793):
`result.split(key).join(replacement)` for each key, in order. -/
def applyPreferred (pa : List (Str × List (Str × Str))) (toName : Str) (result : Str) : Str :=
  match lookupPA pa toName with
  | some subs => subs.foldl (fun r kv => splitJoin kv.1 kv.2 r) result
  | none => result

/-- The character class of the Tamil-superscripted reordering patterns: all
characters of the scheme's `vowel_marks` values, the virama value, and the
two Vedic accent characters.  A missing scheme or `vowel_marks`/`virama`
group crashes the property access; a missing virama key concatenates the
JavaScript string `"undefined"`. -/
def tamilClass (schemes : Registry) : Except Str (List Char) :=
  match sget schemes "tamil_superscripted".data with
  | none => Except.error errTypeError
  | some ts =>
    match getGroup ts gVowelMarks with
    | none => Except.error errTypeError
    | some vm =>
      match getGroup ts gVirama with
      | none => Except.error errTypeError
      | some vg =>
        Except.ok (joinVals vm ++ ((aget vg viramaKey).getD "undefined".data) ++ ['॒', '॑'])

def supChars : List Char := ['²', '³', '⁴']

/-- The post-map part of `Sanscript.t`: per-pair preprocessing, the
from-shortcuts pass, engine dispatch, the to-shortcuts pass,
Tamil-superscripted postprocessing and `preferred_alternates` substitution
(lines 733-795).  Factored out of `t` so that it is manifest that this part
reads the compiled map but never the cache slot. -/
def tBody (schemes : Registry) (data fromName toName : Str) (options : Options)
    (mp : CompiledMap) : Except Str Str :=
  let dataE : Except Str Str :=
    if fromName = "itrans".data then Except.ok (itransPre data)
    else if fromName = "tamil_superscripted".data then
      match tamilClass schemes with
      | Except.error e => Except.error e
      | Except.ok cls => Except.ok (swapRunSup cls supChars data)
    else if fromName = "iast".data ∧ toName = "devanagari".data then
      Except.ok (altPuncFix true (stripDashChars (numDotFix (avagrahaFix data))))
    else Except.ok data
  match dataE with
  | Except.error e => Except.error e
  | Except.ok data1 =>
    match sget schemes fromName with
    | none => Except.error errTypeError
    | some fromScheme =>
      let data2 := applyFromShortcuts fromScheme.shortcuts data1
      let resE : Except Str Str :=
        if mp.fromRoman then transliterateRoman schemes data2 mp options
        else transliterateBrahmic schemes data2 mp
      match resE with
      | Except.error e => Except.error e
      | Except.ok res0 =>
        match sget schemes toName with
        | none => Except.error errTypeError
        | some toScheme =>
          let res1 := applyToShortcuts toScheme.shortcuts res0
          let res2E : Except Str Str :=
            if toName = "tamil_superscripted".data then
              match tamilClass schemes with
              | Except.error e => Except.error e
              | Except.ok cls => Except.ok (swapSupRun supChars cls res1)
            else Except.ok res1
          match res2E with
          | Except.error e => Except.error e
          | Except.ok res2 =>
            Except.ok (applyPreferred options.preferred_alternates toName res2)

/-- The dispatcher `Sanscript.t(data, from, to, options)`: auto-detection of
an empty `from`, option merging (mutating the caller's object), the cache
check, `makeMap` on a miss, then `tBody`.  On an exception the cache slot
keeps its previous value. -/
def t (schemes : Registry) (cache : Option Cache) (data : Str)
    (fromName0 toName : Str) (optsIn : Option OptionsIn) : TOut :=
  let fromName := if fromName0 = [] then lowerStr (detect data) else fromName0
  let oIn := optsIn.getD OptionsIn.empty
  let options := mergeOptions oIn
  let post := optsIn.map (fun _ => writeBack options)
  let mkNew : Except Str (CompiledMap × Option Cache) :=
    match makeMap schemes fromName toName with
    | Except.error e => Except.error e
    | Except.ok mp => Except.ok (mp, some ⟨fromName, toName, options, mp⟩)
  let got : Except Str (CompiledMap × Option Cache) :=
    match cache with
    | some c =>
      if c.fromName = fromName ∧ c.toName = toName ∧ c.options = options then
        Except.ok (c.map, some c)
      else mkNew
    | none => mkNew
  match got with
  | Except.error e => ⟨Except.error e, cache, post⟩
  | Except.ok (mp, cache2) =>
    ⟨tBody schemes data fromName toName options mp, cache2, post⟩

/-! ## The audio-number helpers -/

/-- The audio marker character `▷`. -/
def audioMark : Char := '▷'

/-- A digit or lowercase letter, the class `[\da-z]`. -/
def isAzDigit (c : Char) : Bool :=
  c.isDigit || (decide ('a' ≤ c) && decide (c ≤ 'z'))

/-- The part of a `RE_AUDIO_WITH_NUM` match after the marker: greedy digits
plus at most one lowercase letter (`\d+[a-z]?`), or nothing (`\d*` when no
digit follows). -/
def audioNumRest (s : Str) : Str :=
  let ds := s.takeWhile Char.isDigit
  if ds = [] then []
  else
    match s.drop ds.length with
    | c :: _ => if decide ('a' ≤ c) && decide (c ≤ 'z') then ds ++ [c] else ds
    | [] => ds

/-- JavaScript `text.split(RE_AUDIO_WITH_NUM)` together with the list of
matches: returns (segments, matches) with one more segment than matches and
`text` equal to their interleaving. -/
def splitAudioF : Nat → Str → List Str × List Str
  | 0, _ => ([[]], [])
  | _ + 1, [] => ([[]], [])
  | fuel + 1, c :: rest =>
    if c = audioMark then
      let r := audioNumRest rest
      let out := splitAudioF fuel (rest.drop r.length)
      ([] :: out.1, (audioMark :: r) :: out.2)
    else
      match splitAudioF fuel rest with
      | (seg :: segs, ms) => ((c :: seg) :: segs, ms)
      | ([], ms) => ([[c]], ms)

/-- Fuel `s.length` always suffices: every step consumes at least one
character. -/
def splitAudio (s : Str) : List Str × List Str :=
  splitAudioF s.length s

/-- JavaScript `text.replace(RE_AUDIO_WITH_NUM, '▷')`: each audio-number
match collapses to a bare marker. -/
def replaceAudioF : Nat → Str → Str
  | 0, s => s
  | _ + 1, [] => []
  | fuel + 1, c :: rest =>
    if c = audioMark then
      audioMark :: replaceAudioF fuel (rest.drop (audioNumRest rest).length)
    else c :: replaceAudioF fuel rest

/-- Fuel `s.length` always suffices: every step consumes at least one
character. -/
def replaceAudio (s : Str) : Str :=
  replaceAudioF s.length s

/-- The number scan of `pickAudioNumbers` at marker position `idx`
(lines 661-664): pre-increment past the marker, then, if a digit follows,
that digit and the following run of `[\da-z]` characters.  Returns the
number and the final index. -/
def pickNum (text : Str) (idx : Nat) : Str × Nat :=
  let j := idx + 1
  match text[j]? with
  | some c =>
    if c.isDigit then
      let more := (text.drop (j + 1)).takeWhile isAzDigit
      (c :: more, j + 1 + more.length)
    else ([], j)
  | none => ([], j)

/-- The `forEach` over split segments of `pickAudioNumbers`, accumulating
the extracted numbers; `idx` indexes the original text and `if (text[idx])`
is an in-bounds test. -/
def pickLoop (text : Str) : List Str → Nat → List Str
  | [], _ => []
  | seg :: segs, idx =>
    let idx1 := idx + seg.length
    if idx1 < text.length then
      let out := pickNum text idx1
      out.1 :: pickLoop text segs out.2
    else pickLoop text segs idx1

/-- `Sanscript.pickAudioNumbers(audios, text)`: returns the numbers appended
to `audios` and the text with audio numbers stripped. -/
def pickAudioNumbers (text : Str) : List Str × Str :=
  (pickLoop text (splitAudio text).1 0, replaceAudio text)

/-- `Sanscript.refillAudioNumbers(audios, index, text)`: append
`audios[index++] || ''` after each marker. -/
def refillAudioNumbers (audios : List Str) (idx : Nat) : Str → Str
  | [] => []
  | c :: rest =>
    if c = audioMark then
      (c :: ((audios[idx]?).getD [])) ++ refillAudioNumbers audios (idx + 1) rest
    else c :: refillAudioNumbers audios idx rest

/-! ## C5: the scheme detector -/

/-- The nine enumerated Brahmic blocks, in table order. -/
def brahmicEnum : List (Str × Nat) :=
  SCHEMES.filterMap (fun p => p.2.map (fun n => (p.1, n)))

/-- The fifteen scheme names of the detection table. -/
def detectNames : List Str :=
  SCHEMES.map Prod.fst

lemma BLOCKS_eq : BLOCKS =
    [("Malayalam".data, 0xd00), ("Kannada".data, 0xc80), ("Telugu".data, 0xc00),
     ("Tamil".data, 0xb80), ("Oriya".data, 0xb00), ("Gujarati".data, 0xa80),
     ("Gurmukhi".data, 0xa00), ("Bengali".data, 0x980), ("Devanagari".data, 0x900)] := by
  decide

lemma findBlock_cons (code : Nat) (name : Str) (start : Nat) (rest : List (Str × Nat)) :
    findBlock code ((name, start) :: rest) =
      if start ≤ code then some name else findBlock code rest := rfl

lemma findBlock_greatest (code : Nat) (h1 : 0x900 ≤ code) (h2 : code ≤ 0xd7f) :
    ∃ nm start, findBlock code BLOCKS = some nm ∧ (nm, start) ∈ brahmicEnum ∧
      start ≤ code ∧ ∀ q ∈ brahmicEnum, q.2 ≤ code → q.2 ≤ start := by
  rw [BLOCKS_eq]
  simp only [findBlock_cons]
  by_cases hA : 0xd00 ≤ code
  · refine ⟨_, 0xd00, by rw [if_pos hA], by decide, hA, ?_⟩
    intro q hq hle
    fin_cases hq <;> simp_all <;> omega
  · by_cases hB : 0xc80 ≤ code
    · refine ⟨_, 0xc80, by rw [if_neg hA, if_pos hB], by decide, hB, ?_⟩
      intro q hq hle
      fin_cases hq <;> simp_all <;> omega
    · by_cases hC : 0xc00 ≤ code
      · refine ⟨_, 0xc00, by rw [if_neg hA, if_neg hB, if_pos hC], by decide, hC, ?_⟩
        intro q hq hle
        fin_cases hq <;> simp_all <;> omega
      · by_cases hD : 0xb80 ≤ code
        · refine ⟨_, 0xb80, by rw [if_neg hA, if_neg hB, if_neg hC, if_pos hD], by decide,
            hD, ?_⟩
          intro q hq hle
          fin_cases hq <;> simp_all <;> omega
        · by_cases hE : 0xb00 ≤ code
          · refine ⟨_, 0xb00,
              by rw [if_neg hA, if_neg hB, if_neg hC, if_neg hD, if_pos hE], by decide,
              hE, ?_⟩
            intro q hq hle
            fin_cases hq <;> simp_all <;> omega
          · by_cases hF : 0xa80 ≤ code
            · refine ⟨_, 0xa80,
                by rw [if_neg hA, if_neg hB, if_neg hC, if_neg hD, if_neg hE, if_pos hF],
                by decide, hF, ?_⟩
              intro q hq hle
              fin_cases hq <;> simp_all <;> omega
            · by_cases hG : 0xa00 ≤ code
              · refine ⟨_, 0xa00,
                  by rw [if_neg hA, if_neg hB, if_neg hC, if_neg hD, if_neg hE, if_neg hF,
                    if_pos hG], by decide, hG, ?_⟩
                intro q hq hle
                fin_cases hq <;> simp_all <;> omega
              · by_cases hH : 0x980 ≤ code
                · refine ⟨_, 0x980,
                    by rw [if_neg hA, if_neg hB, if_neg hC, if_neg hD, if_neg hE, if_neg hF,
                      if_neg hG, if_pos hH], by decide, hH, ?_⟩
                  intro q hq hle
                  fin_cases hq <;> simp_all <;> omega
                · refine ⟨_, 0x900,
                    by rw [if_neg hA, if_neg hB, if_neg hC, if_neg hD, if_neg hE, if_neg hF,
                      if_neg hG, if_neg hH, if_pos h1], by decide, h1, ?_⟩
                  intro q hq hle
                  fin_cases hq <;> simp_all <;> omega

lemma detectBrahmic_append (pre : Str) (c : Char) (post : Str)
    (hpre : ∀ c0 ∈ pre, ¬(0x900 ≤ c0.toNat ∧ c0.toNat ≤ 0xd7f))
    (h1 : 0x900 ≤ c.toNat) (h2 : c.toNat ≤ 0xd7f) :
    detectBrahmic (pre ++ c :: post) = findBlock c.toNat BLOCKS := by
  induction pre with
  | nil =>
    obtain ⟨nm, start, hf, _, _, _⟩ := findBlock_greatest c.toNat h1 h2
    simp only [List.nil_append, detectBrahmic, if_pos (And.intro h1 h2)]
    rw [hf]
  | cons c0 pre ih =>
    have h0 := hpre c0 (by simp)
    simp only [List.cons_append, detectBrahmic, if_neg h0]
    exact ih (fun x hx => hpre x (by simp [hx]))

lemma findBlock_mem {code : Nat} {bl : List (Str × Nat)} {nm : Str}
    (h : findBlock code bl = some nm) : ∃ s, (nm, s) ∈ bl := by
  induction bl with
  | nil => simp [findBlock] at h
  | cons p rest ih =>
    obtain ⟨pn, ps⟩ := p
    rw [findBlock_cons] at h
    by_cases hc : ps ≤ code
    · rw [if_pos hc] at h
      exact ⟨ps, by simp [← Option.some_inj.mp h]⟩
    · rw [if_neg hc] at h
      obtain ⟨s, hs⟩ := ih h
      exact ⟨s, by simp [hs]⟩

lemma detectBrahmic_mem {text : Str} {nm : Str}
    (h : detectBrahmic text = some nm) : ∃ s, (nm, s) ∈ BLOCKS := by
  induction text with
  | nil => simp [detectBrahmic] at h
  | cons c rest ih =>
    by_cases hr : 0x900 ≤ c.toNat ∧ c.toNat ≤ 0xd7f
    · simp only [detectBrahmic, if_pos hr] at h
      cases hf : findBlock c.toNat BLOCKS with
      | some nm2 =>
        rw [hf] at h
        obtain ⟨s, hs⟩ := findBlock_mem hf
        exact ⟨s, by rwa [← Option.some_inj.mp h]⟩
      | none =>
        rw [hf] at h
        exact ih h
    · simp only [detectBrahmic, if_neg hr] at h
      exact ih h

/-- C5: at the first character in the Brahmic range the detector returns the
enumerated block with the greatest start at most that code point; the four
documented examples hold; every result (including the `HK` default) is one
of the fifteen table names. -/
theorem detect_spec :
    (∀ pre c post, (∀ c0 ∈ pre, ¬(0x900 ≤ c0.toNat ∧ c0.toNat ≤ 0xd7f)) →
      0x900 ≤ c.toNat → c.toNat ≤ 0xd7f →
      ∃ start, (detect (pre ++ c :: post), start) ∈ brahmicEnum ∧ start ≤ c.toNat ∧
        ∀ q ∈ brahmicEnum, q.2 ≤ c.toNat → q.2 ≤ start) ∧
    detect "धर्म".data = "Devanagari".data ∧
    detect "dharma".data = "HK".data ∧
    detect "dharmaḥ".data = "IAST".data ∧
    detect ".a".data = "ITRANS".data ∧
    (∀ text, detect text ∈ detectNames) := by
  refine ⟨?_, by decide, by decide, by decide, by decide, ?_⟩
  · intro pre c post hpre h1 h2
    obtain ⟨nm, start, hf, hmem, hle, hmax⟩ := findBlock_greatest c.toNat h1 h2
    have hd : detect (pre ++ c :: post) = nm := by
      unfold detect
      rw [detectBrahmic_append pre c post hpre h1 h2, hf]
    rw [hd]
    exact ⟨start, hmem, hle, hmax⟩
  · intro text
    cases h : detectBrahmic text with
    | some nm =>
      have hd : detect text = nm := by
        unfold detect
        rw [h]
      rw [hd]
      obtain ⟨s, hs⟩ := detectBrahmic_mem h
      rw [BLOCKS_eq] at hs
      fin_cases hs <;> decide
    | none =>
      have hd : detect text =
          (if reIastOrKolkata text then
            if reKolkataOnly text then "Kolkata".data else "IAST".data
          else if reItransOnly text then "ITRANS".data
          else if reSlp1Only text then "SLP1".data
          else if reVelthuisOnly text then "Velthuis".data
          else if reItransOrVelthuis text then "ITRANS".data
          else "HK".data) := by
        unfold detect
        rw [h]
      rw [hd]
      split_ifs <;> decide

/-- Witness for `detect_spec`: its universal parts applied at the concrete
input `"धर्म"` (first character `ध`, code point 0x918+0xF = 2343) and at
`"dharma"`. -/
theorem detect_spec_witness :
    (∃ start, (detect ([] ++ 'ध' :: "र्म".data), start) ∈ brahmicEnum ∧
      start ≤ 'ध'.toNat ∧ ∀ q ∈ brahmicEnum, q.2 ≤ 'ध'.toNat → q.2 ≤ start) ∧
    detect "dharma".data ∈ detectNames :=
  ⟨detect_spec.1 [] 'ध' "र्म".data (by simp) (by decide) (by decide),
   detect_spec.2.2.2.2.2 "dharma".data⟩

/-! ## Association-list lemmas -/

lemma aget_cons (k0 v0 : Str) (rest : List (Str × Str)) (k : Str) :
    aget ((k0, v0) :: rest) k = if k0 = k then some v0 else aget rest k := by
  by_cases h : k0 = k
  · rw [aget, List.find?_cons_of_pos _ (by simp [h]), if_pos h]
    rfl
  · rw [aget, List.find?_cons_of_neg _ (by simp [h]), if_neg h]
    rfl

lemma aget_aset_self (m : List (Str × Str)) (k v : Str) : aget (aset m k v) k = some v := by
  induction m with
  | nil => simp [aset, aget_cons]
  | cons p rest ih =>
    obtain ⟨k0, v0⟩ := p
    by_cases h : k0 = k
    · simp [aset, h, aget_cons]
    · simp only [aset, if_neg h]
      rw [aget_cons, if_neg h]
      exact ih

lemma aget_aset_of_ne (m : List (Str × Str)) (k v k2 : Str) (h : ¬k = k2) :
    aget (aset m k v) k2 = aget m k2 := by
  induction m with
  | nil => simp [aset, aget_cons, aget, h]
  | cons p rest ih =>
    obtain ⟨k0, v0⟩ := p
    by_cases h0 : k0 = k
    · subst h0
      have ha : aset ((k0, v0) :: rest) k0 v = (k0, v) :: rest := by
        simp [aset]
      rw [ha, aget_cons, aget_cons, if_neg h, if_neg h]
    · simp only [aset, if_neg h0]
      rw [aget_cons, aget_cons]
      by_cases h2 : k0 = k2
      · rw [if_pos h2, if_pos h2]
      · rw [if_neg h2, if_neg h2]
        exact ih

lemma aget_aset_isSome (m : List (Str × Str)) (k v k2 : Str)
    (h : (aget m k2).isSome) : (aget (aset m k v) k2).isSome := by
  by_cases hk : k = k2
  · subst hk
    simp [aget_aset_self]
  · rwa [aget_aset_of_ne m k v k2 hk]

lemma aget_foldl_aset_isSome (l : List Str) (T : Str) (m : List (Str × Str)) (k2 : Str)
    (h : (aget m k2).isSome) :
    (aget (l.foldl (fun m2 a => aset m2 a T) m) k2).isSome := by
  induction l generalizing m with
  | nil => simpa
  | cons a rest ih =>
    simp only [List.foldl_cons]
    exact ih _ (aget_aset_isSome m a T k2 h)

/-! ## C2: makeMap error behavior -/

/-- A registered source scheme whose `accented_vowel_alternates` references
the base vowel `e`, absent from the compiled letters. -/
def schemeC2from : Scheme :=
  { groups := [(gVowels, [(aKey, "a".data)])]
    alternates := []
    accentedVowelAlternates := [("eq".data, ["E".data])]
    isRomanScheme := true
    shortcuts := [] }

def schemeC2to : Scheme :=
  { groups := [(gVowels, [(aKey, "x".data)]), (gVirama, [(viramaKey, "w".data)])]
    alternates := []
    accentedVowelAlternates := []
    isRomanScheme := false
    shortcuts := [] }

def registryC2 : Registry :=
  [("fx".data, schemeC2from), ("tx".data, schemeC2to)]

/-- Counterexample to C2: both scheme names are registered, yet `makeMap`
fails — the `accented_vowel_alternates` entry `eq` references the base
vowel `e`, which is absent from the compiled letters, and the source
crashes on `letters[baseVowel].concat` right after logging. -/
theorem makeMap_accented_crash :
    makeMap registryC2 "fx".data "tx".data = Except.error errTypeError ∧
    (sget registryC2 "fx".data).isSome ∧ (sget registryC2 "tx".data).isSome := by
  decide

lemma mmAccentedOne_ok {acc : MMAcc} {base syn : Str}
    (h : (aget acc.letters base.dropLast).isSome) :
    ∃ acc2, mmAccentedOne acc base syn = Except.ok acc2 ∧
      ∀ k, (aget acc.letters k).isSome → (aget acc2.letters k).isSome := by
  cases hb : aget acc.letters base.dropLast with
  | none =>
    rw [hb] at h
    simp at h
  | some lv =>
    simp only [mmAccentedOne]
    rw [hb]
    refine ⟨_, rfl, ?_⟩
    intro k hk
    exact aget_aset_isSome _ _ _ _ hk

lemma mmAccentedSyns_ok {base : Str} {syns : List Str} {acc : MMAcc}
    (h : (aget acc.letters base.dropLast).isSome) :
    ∃ acc2, mmAccentedSyns base (Except.ok acc) syns = Except.ok acc2 ∧
      ∀ k, (aget acc.letters k).isSome → (aget acc2.letters k).isSome := by
  induction syns generalizing acc with
  | nil => exact ⟨acc, rfl, fun k hk => hk⟩
  | cons syn rest ih =>
    obtain ⟨acc1, h1, hp1⟩ := @mmAccentedOne_ok _ _ syn h
    obtain ⟨acc2, h2, hp2⟩ := ih (hp1 _ h)
    refine ⟨acc2, ?_, fun k hk => hp2 k (hp1 k hk)⟩
    rw [mmAccentedSyns, h1]
    exact h2

lemma mmAccentedAll_ok {entries : List (Str × List Str)} {acc : MMAcc}
    (h : ∀ p ∈ entries, (aget acc.letters p.1.dropLast).isSome) :
    ∃ acc2, mmAccentedAll (Except.ok acc) entries = Except.ok acc2 := by
  induction entries generalizing acc with
  | nil => exact ⟨acc, rfl⟩
  | cons p rest ih =>
    obtain ⟨acc1, h1, hp1⟩ := mmAccentedSyns_ok (h p (by simp))
    obtain ⟨acc2, h2⟩ := @ih acc1 (fun q hq => hp1 _ (h q (by simp [hq])))
    refine ⟨acc2, ?_⟩
    rw [mmAccentedAll, h1]
    exact h2

/-- C2 (amended): `makeMap` fails whenever a scheme name is unregistered,
and it also fails (after logging) when an `accented_vowel_alternates` entry
references a base vowel absent from the compiled letters — it does not
complete non-fatally (see `makeMap_accented_crash`).  Conversely, for
registered schemes whose target has `virama` and `vowels` groups, whose
source has a `vowels` group, and whose accented-vowel bases are all present
in the letters compiled by the group loop, `makeMap` succeeds. -/
theorem makeMap_error_spec :
    (∀ (schemes : Registry) (fn tn : Str),
      sget schemes fn = none ∨ sget schemes tn = none →
      makeMap schemes fn tn = Except.error errUnknownScheme) ∧
    (∀ (schemes : Registry) (fn tn : Str) (fs ts : Scheme),
      sget schemes fn = some fs → sget schemes tn = some ts →
      (getGroup ts gVirama).isSome → (getGroup ts gVowels).isSome →
      (getGroup fs gVowels).isSome →
      (∀ p ∈ fs.accentedVowelAlternates,
        (aget (mmGroups fs.alternates ts MMAcc.init fs.groups).letters p.1.dropLast).isSome) →
      (makeMap schemes fn tn).isOk) := by
  constructor
  · intro schemes fn tn h
    unfold makeMap
    rcases h with h | h
    · rw [h]
    · rw [h]
      cases sget schemes fn <;> rfl
  · intro schemes fn tn fs ts hf ht hvir hvow hfvow hacc
    obtain ⟨acc2, h2⟩ := mmAccentedAll_ok hacc
    obtain ⟨vg, hvg⟩ := Option.isSome_iff_exists.mp hvir
    obtain ⟨wg, hwg⟩ := Option.isSome_iff_exists.mp hvow
    obtain ⟨fg, hfg⟩ := Option.isSome_iff_exists.mp hfvow
    have key : makeMap schemes fn tn = Except.ok
        { consonants := acc2.consonants
          accents := acc2.accents
          fromRoman := fs.isRomanScheme
          letters := acc2.letters
          marks := acc2.marks
          maxTokenLength := maxOfList acc2.tokenLengths
          toRoman := ts.isRomanScheme
          virama := aget vg viramaKey
          toSchemeA := aget wg aKey
          fromSchemeA := aget fg aKey
          fromName := fn
          toName := tn } := by
      unfold makeMap
      rw [hf, ht]
      dsimp only
      rw [h2, hvg, hwg, hfg]
    rw [key]
    rfl

/-- A registry like `registryC2` but with the accented base vowel present
(`aq` decomposes into base `a`, which is in the letters). -/
def registryC2ok : Registry :=
  [("fx".data,
    { schemeC2from with accentedVowelAlternates := [("aq".data, ["E".data])] }),
   ("tx".data, schemeC2to)]

/-- Witness for `makeMap_error_spec`: the unknown-scheme half at an empty
registry, and the success half at a registry whose accented base vowel
exists. -/
theorem makeMap_error_spec_witness :
    makeMap [] "fx".data "tx".data = Except.error errUnknownScheme ∧
    (makeMap registryC2ok "fx".data "tx".data).isOk :=
  ⟨makeMap_error_spec.1 [] "fx".data "tx".data (Or.inl (by decide)),
   makeMap_error_spec.2 registryC2ok "fx".data "tx".data
     { schemeC2from with accentedVowelAlternates := [("aq".data, ["E".data])] }
     schemeC2to (by decide) (by decide) (by decide) (by decide) (by decide) (by decide)⟩

/-! ## C4: maxTokenLength -/

lemma aget_aset_isSome_iff (m : List (Str × Str)) (k v k2 : Str) :
    (aget (aset m k v) k2).isSome ↔ ((aget m k2).isSome ∨ k2 = k) := by
  by_cases h : k = k2
  · subst h
    simp [aget_aset_self]
  · rw [aget_aset_of_ne _ _ _ _ h]
    have h2 : ¬k2 = k := fun hh => h hh.symm
    simp [h2]

lemma aget_insertAll_isSome_iff (base : List (Str × Str)) (F T : Str) (alts : List Str)
    (k : Str) :
    (aget (alts.foldl (fun m2 a => aset m2 a T) (aset base F T)) k).isSome ↔
      ((aget base k).isSome ∨ k = F ∨ k ∈ alts) := by
  suffices hgen : ∀ (l : List Str) (m : List (Str × Str)),
      (aget (l.foldl (fun m2 a => aset m2 a T) m) k).isSome ↔
        ((aget m k).isSome ∨ k ∈ l) by
    rw [hgen alts (aset base F T), aget_aset_isSome_iff]
    tauto
  intro l
  induction l with
  | nil => simp
  | cons a rest ih =>
    intro m
    rw [List.foldl_cons, ih (aset m a T), aget_aset_isSome_iff]
    simp only [List.mem_cons]
    tauto

/-- The two key-length invariants of the `makeMap` group loop: every key of
`letters` or `marks` has its length recorded in `tokenLengths`, and every
recorded length is the length of some such key. -/
def mmInvar (acc : MMAcc) : Prop :=
  (∀ k, ((aget acc.letters k).isSome ∨ (aget acc.marks k).isSome) →
    k.length ∈ acc.tokenLengths) ∧
  (∀ l ∈ acc.tokenLengths, ∃ k,
    ((aget acc.letters k).isSome ∨ (aget acc.marks k).isSome) ∧ k.length = l)

lemma mmInvar_update_marks (acc : MMAcc) (F T : Str) (alts : List Str)
    (cs as : List (Str × Str)) (h : mmInvar acc) :
    mmInvar ⟨cs, acc.letters, alts.foldl (fun m2 a => aset m2 a T) (aset acc.marks F T),
      as, acc.tokenLengths ++ F.length :: alts.map List.length⟩ := by
  constructor
  · intro k hk
    simp only [aget_insertAll_isSome_iff] at hk
    simp only [List.mem_append, List.mem_cons]
    rcases hk with hk | hk | rfl | hk
    · exact Or.inl (h.1 k (Or.inl hk))
    · exact Or.inl (h.1 k (Or.inr hk))
    · exact Or.inr (Or.inl rfl)
    · exact Or.inr (Or.inr (List.mem_map.mpr ⟨k, hk, rfl⟩))
  · intro l hl
    rcases List.mem_append.mp hl with hl | hl
    · obtain ⟨k, hk, rfl⟩ := h.2 l hl
      refine ⟨k, ?_, rfl⟩
      rcases hk with hk | hk
      · exact Or.inl hk
      · exact Or.inr (by rw [aget_insertAll_isSome_iff]; tauto)
    · rcases List.mem_cons.mp hl with rfl | hl
      · exact ⟨F, Or.inr (by rw [aget_insertAll_isSome_iff]; tauto), rfl⟩
      · obtain ⟨a, ha, rfl⟩ := List.mem_map.mp hl
        exact ⟨a, Or.inr (by rw [aget_insertAll_isSome_iff]; tauto), rfl⟩

lemma mmInvar_update_letters (acc : MMAcc) (F T : Str) (alts : List Str)
    (cs as : List (Str × Str)) (h : mmInvar acc) :
    mmInvar ⟨cs, alts.foldl (fun m2 a => aset m2 a T) (aset acc.letters F T), acc.marks,
      as, acc.tokenLengths ++ F.length :: alts.map List.length⟩ := by
  constructor
  · intro k hk
    simp only [aget_insertAll_isSome_iff] at hk
    simp only [List.mem_append, List.mem_cons]
    rcases hk with (hk | rfl | hk) | hk
    · exact Or.inl (h.1 k (Or.inl hk))
    · exact Or.inr (Or.inl rfl)
    · exact Or.inr (Or.inr (List.mem_map.mpr ⟨k, hk, rfl⟩))
    · exact Or.inl (h.1 k (Or.inr hk))
  · intro l hl
    rcases List.mem_append.mp hl with hl | hl
    · obtain ⟨k, hk, rfl⟩ := h.2 l hl
      refine ⟨k, ?_, rfl⟩
      rcases hk with hk | hk
      · exact Or.inl (by rw [aget_insertAll_isSome_iff]; tauto)
      · exact Or.inr hk
    · rcases List.mem_cons.mp hl with rfl | hl
      · exact ⟨F, Or.inl (by rw [aget_insertAll_isSome_iff]; tauto), rfl⟩
      · obtain ⟨a, ha, rfl⟩ := List.mem_map.mp hl
        exact ⟨a, Or.inl (by rw [aget_insertAll_isSome_iff]; tauto), rfl⟩

lemma mmEntry_invar (alternates : List (Str × List Str)) (group : Str)
    (toGroup : List (Str × Str)) (acc : MMAcc) (key F : Str)
    (h : mmInvar acc) : mmInvar (mmEntry alternates group toGroup acc key F) := by
  unfold mmEntry
  cases hT : aget toGroup key with
  | none => exact h
  | some T0 =>
    dsimp only
    split_ifs <;>
      first
        | exact mmInvar_update_marks acc F _ _ _ _ h
        | exact mmInvar_update_letters acc F _ _ _ _ h

lemma mmEntries_invar (alternates : List (Str × List Str)) (group : Str)
    (toGroup : List (Str × Str)) (acc : MMAcc) (entries : List (Str × Str))
    (h : mmInvar acc) : mmInvar (mmEntries alternates group toGroup acc entries) := by
  induction entries generalizing acc with
  | nil => exact h
  | cons p rest ih =>
    obtain ⟨key, F⟩ := p
    exact ih _ (mmEntry_invar alternates group toGroup acc key F h)

lemma mmGroups_invar (alternates : List (Str × List Str)) (toScheme : Scheme)
    (acc : MMAcc) (groups : List (Str × List (Str × Str)))
    (h : mmInvar acc) : mmInvar (mmGroups alternates toScheme acc groups) := by
  induction groups generalizing acc with
  | nil => exact h
  | cons p rest ih =>
    obtain ⟨group, fromGroup⟩ := p
    rw [mmGroups]
    cases getGroup toScheme group with
    | none => exact ih _ h
    | some toGroup => exact ih _ (mmEntries_invar alternates group toGroup acc fromGroup h)

lemma mmInvar_init : mmInvar MMAcc.init := by
  constructor
  · intro k hk
    simp [MMAcc.init, aget] at hk
  · intro l hl
    simp [MMAcc.init] at hl

lemma maxOfList_bound {lst : List Nat} {l : Nat} (h : l ∈ lst) :
    ∃ n, maxOfList lst = some n ∧ l ≤ n := by
  induction lst with
  | nil => simp at h
  | cons a rest ih =>
    cases hm : maxOfList rest with
    | none =>
      have hr : rest = [] := by
        cases rest with
        | nil => rfl
        | cons b r2 =>
          rw [maxOfList] at hm
          split at hm <;> simp at hm
      subst hr
      simp at h
      subst h
      exact ⟨l, rfl, Nat.le_refl l⟩
    | some mx =>
      refine ⟨Nat.max a mx, by rw [maxOfList, hm], ?_⟩
      rcases List.mem_cons.mp h with rfl | h2
      · exact Nat.le_max_left _ _
      · obtain ⟨n, hn, hln⟩ := ih h2
        rw [hn] at hm
        cases hm
        exact le_trans hln (Nat.le_max_right _ _)

lemma maxOfList_mem {lst : List Nat} {n : Nat} (h : maxOfList lst = some n) : n ∈ lst := by
  induction lst generalizing n with
  | nil => simp [maxOfList] at h
  | cons a rest ih =>
    rw [maxOfList] at h
    cases hm : maxOfList rest with
    | none =>
      rw [hm] at h
      cases h
      simp
    | some mx =>
      rw [hm] at h
      cases h
      rcases max_choice a mx with hc | hc <;>
        rw [show Nat.max a mx = a ⊔ mx from rfl, hc]
      · simp
      · simp [ih hm]

lemma romInner_token_le (m : CompiledMap) (opts : Options) (count : Nat) (buffer : Str)
    (st : RomState) :
    ∀ ev ∈ (romInner m opts count buffer st).2.2, ev.token.length ≤ count := by
  induction count generalizing buffer st with
  | zero => simp [romInner]
  | succ c ih =>
    intro ev hev
    rw [romInner] at hev
    dsimp only at hev
    have htk : (List.take (c + 1) buffer).length ≤ c + 1 := by
      rw [List.length_take]
      omega
    repeat' split at hev
    all_goals
      first
        | (simp at hev; subst hev; exact htk)
        | exact le_trans (ih _ _ ev hev) (by omega)
        | simp at hev

lemma romLoop_token_le (m : CompiledMap) (opts : Options) (maxN fuel : Nat)
    (rest buffer : Str) (st : RomState) (evs : List RomEvent) (st2 : RomState)
    (h : romLoop m opts maxN fuel rest buffer st = some (evs, st2)) :
    ∀ ev ∈ evs, ev.token.length ≤ maxN := by
  induction fuel generalizing rest buffer st evs st2 with
  | zero => simp [romLoop] at h
  | succ f ih =>
    rw [romLoop.eq_def] at h
    dsimp only at h
    by_cases hstop : rest = [] ∧ buffer = []
    · rw [if_pos hstop] at h
      simp only [Option.some.injEq, Prod.mk.injEq] at h
      obtain ⟨rfl, rfl⟩ := h
      simp
    · rw [if_neg hstop] at h
      cases rest with
      | nil =>
        dsimp only at h
        rcases Option.map_eq_some'.mp h with ⟨o, ho, hfo⟩
        simp only [Prod.mk.injEq] at hfo
        obtain ⟨rfl, rfl⟩ := hfo
        intro ev hev
        rcases List.mem_append.mp hev with hev | hev
        · exact romInner_token_le m opts maxN _ st ev hev
        · exact ih _ _ _ _ _ ho ev hev
      | cons c rest2 =>
        cases hfill : decide (buffer.length < maxN) with
        | true =>
          rw [hfill] at h
          dsimp only at h
          split_ifs at h with hcont
          · exact ih _ _ _ _ _ h
          · rcases Option.map_eq_some'.mp h with ⟨o, ho, hfo⟩
            simp only [Prod.mk.injEq] at hfo
            obtain ⟨rfl, rfl⟩ := hfo
            intro ev hev
            rcases List.mem_append.mp hev with hev | hev
            · exact romInner_token_le m opts maxN _ st ev hev
            · exact ih _ _ _ _ _ ho ev hev
        | false =>
          rw [hfill] at h
          dsimp only at h
          rcases Option.map_eq_some'.mp h with ⟨o, ho, hfo⟩
          simp only [Prod.mk.injEq] at hfo
          obtain ⟨rfl, rfl⟩ := hfo
          intro ev hev
          rcases List.mem_append.mp hev with hev | hev
          · exact romInner_token_le m opts maxN _ st ev hev
          · exact ih _ _ _ _ _ ho ev hev

lemma mmAccentedAll_nil (e : Except Str MMAcc) : mmAccentedAll e [] = e := by
  cases e <;> rfl

lemma makeMap_ok_fields {schemes : Registry} {fn tn : Str} {m : CompiledMap} {fs : Scheme}
    (hf : sget schemes fn = some fs) (hA : fs.accentedVowelAlternates = [])
    (hok : makeMap schemes fn tn = Except.ok m) :
    ∃ ts, sget schemes tn = some ts ∧
      m.letters = (mmGroups fs.alternates ts MMAcc.init fs.groups).letters ∧
      m.marks = (mmGroups fs.alternates ts MMAcc.init fs.groups).marks ∧
      m.maxTokenLength = maxOfList (mmGroups fs.alternates ts MMAcc.init fs.groups).tokenLengths := by
  unfold makeMap at hok
  rw [hf] at hok
  cases hts : sget schemes tn with
  | none =>
    rw [hts] at hok
    simp at hok
  | some ts =>
    rw [hts] at hok
    dsimp only at hok
    rw [hA, mmAccentedAll_nil] at hok
    dsimp only at hok
    refine ⟨ts, rfl, ?_⟩
    repeat' split at hok
    all_goals
      first
        | (simp only [Except.ok.injEq] at hok
           subst hok
           exact ⟨rfl, rfl, rfl⟩)
        | simp at hok

/-- A registered pair whose source declares the accented-vowel synonym
`xyz` (length 3) while every group token has length 1. -/
def registryC4 : Registry :=
  [("f4".data,
    { groups := [(gVowels, [(aKey, "a".data)])]
      alternates := []
      accentedVowelAlternates := [("aq".data, ["xyz".data])]
      isRomanScheme := true
      shortcuts := [] }),
   ("t4".data, schemeC2to)]

/-- Counterexample to C4: the compiled map of `registryC4` recognizes the
source token `xyz` (an accented-vowel-alternate synonym, present in both
`letters` and `marks`) of length 3, yet `maxTokenLength` is 1 — synonym
lengths are never pushed onto `tokenLengths`. -/
theorem maxTokenLength_counterexample :
    ∃ m, makeMap registryC4 "f4".data "t4".data = Except.ok m ∧
      m.maxTokenLength = some 1 ∧ (aget m.letters "xyz".data).isSome ∧
      ("xyz".data).length = 3 :=
  ⟨_, rfl, by decide, by decide, by decide⟩

/-- C4 (amended): for maps compiled without `accented_vowel_alternates`,
`maxTokenLength` is exactly the maximum length of the keys of
`letters ∪ marks` (alternates included): every key is bounded by it and it
is attained; and the Roman engine never consumes a token longer than
`maxTokenLength`.  (Accented-vowel synonyms are excluded: their lengths are
not counted, see `maxTokenLength_counterexample`.) -/
theorem maxTokenLength_spec :
    (∀ (schemes : Registry) (fn tn : Str) (m : CompiledMap) (fs : Scheme),
      sget schemes fn = some fs → fs.accentedVowelAlternates = [] →
      makeMap schemes fn tn = Except.ok m →
      (∀ k, ((aget m.letters k).isSome ∨ (aget m.marks k).isSome) →
        ∃ n, m.maxTokenLength = some n ∧ k.length ≤ n) ∧
      (∀ n, m.maxTokenLength = some n →
        ∃ k, ((aget m.letters k).isSome ∨ (aget m.marks k).isSome) ∧ k.length = n)) ∧
    (∀ (m : CompiledMap) (opts : Options) (data : Str) (out : List RomEvent × RomState),
      romRun m opts data = some out →
      ∀ ev ∈ out.1, ev.token.length ≤ m.maxTokenLength.getD 0) := by
  constructor
  · intro schemes fn tn m fs hf hA hok
    obtain ⟨ts, hts, hl, hmk, hmx⟩ := makeMap_ok_fields hf hA hok
    have hinv := mmGroups_invar fs.alternates ts MMAcc.init fs.groups mmInvar_init
    constructor
    · intro k hk
      rw [hl, hmk] at hk
      obtain ⟨n, hn, hle⟩ := maxOfList_bound (hinv.1 k hk)
      refine ⟨n, ?_, hle⟩
      rw [hmx]
      exact hn
    · intro n hn
      rw [hmx] at hn
      obtain ⟨k, hk, hkl⟩ := hinv.2 _ (maxOfList_mem hn)
      refine ⟨k, ?_, hkl⟩
      rw [hl, hmk]
      exact hk
  · intro m opts data out hrun
    obtain ⟨evs, st2⟩ := out
    exact romLoop_token_le m opts _ _ data [] RomState.init evs st2 hrun

/-- A registered pair with no accented-vowel alternates, for the witness. -/
def registryC4w : Registry :=
  [("f4".data,
    { groups := [(gVowels, [(aKey, "a".data)])]
      alternates := []
      accentedVowelAlternates := []
      isRomanScheme := true
      shortcuts := [] }),
   ("t4".data, schemeC2to)]

/-- The compiled map of `registryC4w` (total by construction; the error arm
is unreachable, see `mapC4w_eq`). -/
def mapC4w : CompiledMap :=
  match makeMap registryC4w "f4".data "t4".data with
  | Except.ok m => m
  | Except.error _ => ⟨[], [], false, [], [], none, false, none, none, none, [], []⟩

lemma mapC4w_eq : makeMap registryC4w "f4".data "t4".data = Except.ok mapC4w := rfl

/-- Witness for `maxTokenLength_spec`, at the concrete registry
`registryC4w` (key `a`) and a concrete run of the Roman engine. -/
theorem maxTokenLength_spec_witness :
    makeMap registryC4w "f4".data "t4".data = Except.ok mapC4w ∧
    (∃ n, mapC4w.maxTokenLength = some n ∧ ("a".data).length ≤ n) ∧
    (∃ out, romRun mapC4w defaults "a".data = some out ∧
      ∀ ev ∈ out.1, ev.token.length ≤ mapC4w.maxTokenLength.getD 0) := by
  refine ⟨rfl, ?_, ?_⟩
  · exact (maxTokenLength_spec.1 registryC4w "f4".data "t4".data mapC4w _ rfl rfl
      mapC4w_eq).1 "a".data (by decide)
  · refine ⟨_, rfl, ?_⟩
    intro ev hev
    exact maxTokenLength_spec.2 mapC4w defaults "a".data _ rfl ev hev

/-! ## C6: shortcut substitution in the dispatcher -/

/-- A Brahmic source scheme (whose letters touch neither `k` nor space)
carrying the shortcut pair key `kk` → shortcut `k`. -/
def schemeC6from : Scheme :=
  { groups := [(gVowels, [(aKey, "v".data)])]
    alternates := []
    accentedVowelAlternates := []
    isRomanScheme := false
    shortcuts := [("kk".data, "k".data)] }

def schemeC6to : Scheme :=
  { groups := [(gVowels, [(aKey, "a".data)]), (gVirama, [(viramaKey, "".data)])]
    alternates := []
    accentedVowelAlternates := []
    isRomanScheme := false
    shortcuts := [] }

def registryC6 : Registry :=
  [("f6".data, schemeC6from), ("t6".data, schemeC6to)]

/-- The from-shortcuts pass as claim C6 describes it: every occurrence
replaced, not only the first (this definition follows the claim's words,
for comparison against `applyFromShortcuts`, which embeds the source). -/
def claimFromShortcutsAll (shortcuts : List (Str × Str)) (data : Str) : Str :=
  shortcuts.foldl
    (fun d kv =>
      let d1 := if strIncludes kv.2 kv.1 then splitJoin kv.1 kv.2 d else d
      splitJoin kv.2 kv.1 d1)
    data

/-- Counterexample to C6: on input `"k k"` with shortcut pair (`kk`, `k`),
`Sanscript.t` canonicalizes only the first occurrence (JavaScript
`String.replace` with a string pattern), producing `"kk k"`, while the
claim's replace-every-occurrence reading would produce `"kk kk"`. -/
theorem shortcuts_counterexample :
    (t registryC6 none "k k".data "f6".data "t6".data none).result =
      Except.ok "kk k".data ∧
    claimFromShortcutsAll [("kk".data, "k".data)] "k k".data = "kk kk".data ∧
    ¬("kk k".data : Str) = "kk kk".data := by
  refine ⟨rfl, by decide, by decide⟩

lemma replaceFirst_first (pat rep : Str) :
    ∀ (s pre0 post0 : Str), s = pre0 ++ pat ++ post0 →
    ∃ pre post, s = pre ++ pat ++ post ∧ replaceFirst pat rep s = pre ++ rep ++ post ∧
      ∀ pre2 post2, s = pre2 ++ pat ++ post2 → pre.length ≤ pre2.length := by
  intro s
  induction s with
  | nil =>
    intro pre0 post0 h0
    have hp : pat = [] :=
      (List.append_eq_nil.mp (List.append_eq_nil.mp h0.symm).1).2
    subst hp
    refine ⟨[], [], by simp, ?_, fun pre2 post2 _ => by simp⟩
    simp [replaceFirst]
  | cons c tl ih =>
    intro pre0 post0 h0
    by_cases hpre : pat.isPrefixOf (c :: tl)
    · obtain ⟨post, hpost⟩ := List.isPrefixOf_iff_prefix.mp hpre
      refine ⟨[], post, by simp [hpost.symm], ?_, fun pre2 post2 _ => by simp⟩
      rw [replaceFirst, if_pos hpre]
      have hd : (c :: tl).drop pat.length = post := by
        rw [← hpost, List.drop_left]
      rw [hd]
      simp
    · have hpre0 : pre0 ≠ [] := by
        intro hemp
        subst hemp
        simp at h0
        exact hpre (List.isPrefixOf_iff_prefix.mpr ⟨post0, h0.symm⟩)
      obtain ⟨c2, pre0t, rfl⟩ := List.exists_cons_of_ne_nil hpre0
      simp only [List.cons_append, List.cons.injEq] at h0
      obtain ⟨rfl, htl⟩ := h0
      obtain ⟨pre, post, heq, hrep, hmin⟩ := ih pre0t post0 htl
      refine ⟨c :: pre, post, by simp [heq], ?_, ?_⟩
      · rw [replaceFirst, if_neg hpre, hrep]
        simp
      · intro pre2 post2 h2
        cases pre2 with
        | nil =>
          simp at h2
          exact absurd (List.isPrefixOf_iff_prefix.mpr ⟨post2, h2.symm⟩) hpre
        | cons c3 pre2t =>
          simp only [List.cons_append, List.cons.injEq] at h2
          simpa using Nat.succ_le_succ (hmin pre2t post2 h2.2)

/-- The compiled map of `registryC6`. -/
def mapC6 : CompiledMap :=
  match makeMap registryC6 "f6".data "t6".data with
  | Except.ok m => m
  | Except.error _ => ⟨[], [], false, [], [], none, false, none, none, none, [], []⟩

lemma mapC6_eq : makeMap registryC6 "f6".data "t6".data = Except.ok mapC6 := rfl

/-- C6 (amended): before dispatching, `Sanscript.t` rewrites the input with
`applyFromShortcuts`, which for each (key, shortcut) pair replaces only the
FIRST occurrence of the key by the shortcut (when the shortcut occurs in
the key) and then only the FIRST occurrence of the shortcut by the key;
`replaceFirst` is exactly first-occurrence replacement (part two).  All
occurrences are not canonicalized (see `shortcuts_counterexample`). -/
theorem shortcuts_spec :
    (∀ data : Str, (t registryC6 none data "f6".data "t6".data none).result =
      transliterateBrahmic registryC6
        (applyFromShortcuts [("kk".data, "k".data)] data) mapC6) ∧
    (∀ (pat rep s pre0 post0 : Str), s = pre0 ++ pat ++ post0 →
      ∃ pre post, s = pre ++ pat ++ post ∧ replaceFirst pat rep s = pre ++ rep ++ post ∧
        ∀ pre2 post2, s = pre2 ++ pat ++ post2 → pre.length ≤ pre2.length) :=
  ⟨fun _ => rfl, fun pat rep s pre0 post0 h => replaceFirst_first pat rep s pre0 post0 h⟩

/-- Witness for `shortcuts_spec`: the dispatcher equation at the concrete
input `"k k"`, and the first-occurrence characterization at pattern `k`,
replacement `kk`, input `"k k"`. -/
theorem shortcuts_spec_witness :
    (t registryC6 none "k k".data "f6".data "t6".data none).result =
      transliterateBrahmic registryC6
        (applyFromShortcuts [("kk".data, "k".data)] "k k".data) mapC6 ∧
    ∃ pre post, ("k k".data : Str) = pre ++ "k".data ++ post ∧
      replaceFirst "k".data "kk".data "k k".data = pre ++ "kk".data ++ post ∧
      ∀ pre2 post2, ("k k".data : Str) = pre2 ++ "k".data ++ post2 →
        pre.length ≤ pre2.length :=
  ⟨shortcuts_spec.1 "k k".data,
   shortcuts_spec.2 "k".data "kk".data "k k".data [] " k".data (by decide)⟩

/-! ## C10: in-place option merging -/

lemma t_postOptions (schemes : Registry) (cache : Option Cache) (data : Str)
    (fromName0 toName : Str) (optsIn : Option OptionsIn) :
    (t schemes cache data fromName0 toName optsIn).postOptions =
      optsIn.map (fun _ => writeBack (mergeOptions (optsIn.getD OptionsIn.empty))) := by
  unfold t
  dsimp only
  repeat' split
  all_goals rfl

/-- C10: a non-null caller option object is updated in place by `t`: after
the call it carries every default key — caller-supplied values are kept and
omitted keys receive the library defaults (`skip_sgml`, `syncope`,
`split_aksara`, `move_consonant` false, `preferred_alternates` empty).
This holds on every path through `t`, including exceptional ones. -/
theorem options_mutation_spec :
    ∀ (schemes : Registry) (cache : Option Cache) (data fromName0 toName : Str)
      (o : OptionsIn),
      ∃ p, (t schemes cache data fromName0 toName (some o)).postOptions = some p ∧
        (∀ b, o.skip_sgml = some b → p.skip_sgml = some b) ∧
        (o.skip_sgml = none → p.skip_sgml = some false) ∧
        (∀ b, o.syncope = some b → p.syncope = some b) ∧
        (o.syncope = none → p.syncope = some false) ∧
        (∀ v, o.preferred_alternates = some v → p.preferred_alternates = some v) ∧
        (o.preferred_alternates = none → p.preferred_alternates = some []) ∧
        (∀ b, o.split_aksara = some b → p.split_aksara = some b) ∧
        (o.split_aksara = none → p.split_aksara = some false) ∧
        (∀ b, o.move_consonant = some b → p.move_consonant = some b) ∧
        (o.move_consonant = none → p.move_consonant = some false) := by
  intro schemes cache data fromName0 toName o
  refine ⟨writeBack (mergeOptions o), ?_, ?_, ?_, ?_, ?_, ?_, ?_, ?_, ?_, ?_, ?_⟩
  · rw [t_postOptions]
    rfl
  all_goals
    first
      | (intro b hb; simp [writeBack, mergeOptions, hb, defaults])
      | (intro hb; simp [writeBack, mergeOptions, hb, defaults])

/-- Witness for `options_mutation_spec`: the concrete call of
`shortcuts_counterexample` with a caller object supplying only `syncope`. -/
theorem options_mutation_spec_witness :
    ∃ p, (t registryC6 none "k k".data "f6".data "t6".data
        (some ⟨none, some true, none, none, none⟩)).postOptions = some p ∧
      p.syncope = some true ∧ p.skip_sgml = some false := by
  obtain ⟨p, hp, _, h2, h3, _, _, h6, _, _, _, _⟩ :=
    options_mutation_spec registryC6 none "k k".data "f6".data "t6".data
      ⟨none, some true, none, none, none⟩
  exact ⟨p, hp, h3 true rfl, h2 rfl⟩

/-! ## C8: cache transparency -/

/-- C8: the single-slot cache is observationally transparent.  First part:
whenever the cache slot is valid (its stored map is what `makeMap` returns
for its stored pair), a call of `t` returns the same string with the cache
as with an empty slot.  Second part: validity is preserved — the slot left
behind by any call is again valid — so along any sequence of calls starting
from the empty slot every hit returns exactly what a rebuild would. -/
theorem cache_transparent :
    (∀ (schemes : Registry) (c : Cache) (data fromName0 toName : Str)
      (optsIn : Option OptionsIn),
      makeMap schemes c.fromName c.toName = Except.ok c.map →
      (t schemes (some c) data fromName0 toName optsIn).result =
        (t schemes none data fromName0 toName optsIn).result) ∧
    (∀ (schemes : Registry) (cache : Option Cache) (data fromName0 toName : Str)
      (optsIn : Option OptionsIn) (c2 : Cache),
      (∀ c, cache = some c → makeMap schemes c.fromName c.toName = Except.ok c.map) →
      (t schemes cache data fromName0 toName optsIn).cache = some c2 →
      makeMap schemes c2.fromName c2.toName = Except.ok c2.map) := by
  constructor
  · intro schemes c data fromName0 toName optsIn hvalid
    unfold t
    dsimp only
    by_cases hhit : c.fromName = (if fromName0 = [] then lowerStr (detect data) else fromName0) ∧
        c.toName = toName ∧ c.options = mergeOptions (optsIn.getD OptionsIn.empty)
    · rw [if_pos hhit]
      obtain ⟨h1, h2, h3⟩ := hhit
      rw [← h1, ← h2, hvalid]
    · rw [if_neg hhit]
      cases makeMap schemes (if fromName0 = [] then lowerStr (detect data) else fromName0)
          toName <;> rfl
  · intro schemes cache data fromName0 toName optsIn c2 hvalid hout
    unfold t at hout
    dsimp only at hout
    cases cache with
    | none =>
      dsimp only at hout
      cases hmk : makeMap schemes (if fromName0 = [] then lowerStr (detect data) else fromName0)
          toName with
      | error e =>
        rw [hmk] at hout
        simp at hout
      | ok mp =>
        rw [hmk] at hout
        simp only [Option.some.injEq] at hout
        rw [← hout]
        exact hmk
    | some c =>
      dsimp only at hout
      by_cases hhit : c.fromName = (if fromName0 = [] then lowerStr (detect data) else fromName0) ∧
          c.toName = toName ∧ c.options = mergeOptions (optsIn.getD OptionsIn.empty)
      · rw [if_pos hhit] at hout
        simp only [Option.some.injEq] at hout
        rw [← hout]
        exact hvalid c rfl
      · rw [if_neg hhit] at hout
        cases hmk : makeMap schemes (if fromName0 = [] then lowerStr (detect data) else fromName0)
            toName with
        | error e =>
          rw [hmk] at hout
          simp only [Option.some.injEq] at hout
          subst hout
          exact hvalid _ rfl
        | ok mp =>
          rw [hmk] at hout
          simp only [Option.some.injEq] at hout
          rw [← hout]
          exact hmk

/-- Witness for `cache_transparent`: a concrete valid slot for the
`registryC6` pair, and preservation applied to a fresh call. -/
theorem cache_transparent_witness :
    ((t registryC6 (some ⟨"f6".data, "t6".data, mergeOptions OptionsIn.empty, mapC6⟩)
        "k k".data "f6".data "t6".data none).result =
      (t registryC6 none "k k".data "f6".data "t6".data none).result) ∧
    ∀ c2, (t registryC6 none "k k".data "f6".data "t6".data none).cache = some c2 →
      makeMap registryC6 c2.fromName c2.toName = Except.ok c2.map :=
  ⟨cache_transparent.1 registryC6 ⟨"f6".data, "t6".data, mergeOptions OptionsIn.empty, mapC6⟩
      "k k".data "f6".data "t6".data none mapC6_eq,
   fun c2 hc2 => cache_transparent.2 registryC6 none "k k".data "f6".data "t6".data none c2
      (fun c hc => by cases hc) hc2⟩

/-! ## C3: the dangling hash of the Brahmic engine -/

def schemeC3from : Scheme :=
  { groups := [(gVowels, [(aKey, "अ".data)]),
      (gVowelMarks, [("ा".data, "ा".data)]),
      (gConsonants, [("क".data, "क".data)])]
    alternates := []
    accentedVowelAlternates := []
    isRomanScheme := false
    shortcuts := [] }

def schemeC3to : Scheme :=
  { groups := [(gVowels, [(aKey, "a".data)]),
      (gVowelMarks, [("ा".data, "A".data)]),
      (gConsonants, [("क".data, "k".data)]),
      (gVirama, [(viramaKey, "".data)])]
    alternates := []
    accentedVowelAlternates := []
    isRomanScheme := true
    shortcuts := [] }

def registryC3 : Registry :=
  [("f3".data, schemeC3from), ("t3".data, schemeC3to)]

/-- The compiled map of `registryC3` (Brahmic source, Roman target). -/
def mapC3 : CompiledMap :=
  match makeMap registryC3 "f3".data "t3".data with
  | Except.ok m => m
  | Except.error _ => ⟨[], [], false, [], [], none, false, none, none, none, [], []⟩

lemma mapC3_eq : makeMap registryC3 "f3".data "t3".data = Except.ok mapC3 := rfl

/-- Counterexample to C3: a lone `#` is NOT always emitted verbatim.  A `#`
that is the last character of the input is dropped (the dangling flag is
never flushed at end of input), and a lone `#` immediately followed by a
source vowel-mark is dropped as well (the mark branch of the loop does not
flush the dangling flag). -/
theorem lone_hash_counterexample :
    transliterateBrahmic registryC3 "#".data mapC3 = Except.ok "".data ∧
    transliterateBrahmic registryC3 "क#ा".data mapC3 = Except.ok "kaA".data :=
  ⟨rfl, rfl⟩

/-- C3 (amended): a lone `#` (one not immediately paired with a second `#`)
is emitted verbatim exactly when transliteration is active and the next
character exists and is not a source vowel-mark: in that case processing
`#`, then that character, emits the pending consonant's short-a (if any),
then the literal `#`, then the character's own rendering, and scanning
continues in the reset state.  (A lone trailing `#`, and a lone `#`
followed by a vowel-mark, are dropped: see `lone_hash_counterexample`.) -/
theorem lone_hash_spec :
    ∀ (m : CompiledMap) (st : BrahState) (c : Char) (rest : Str),
      st.danglingHash = false → st.skippingTrans = false → ¬c = '#' →
      aget m.marks [c] = none →
      brahLoop m ('#' :: c :: rest) st =
        (if st.hadRomanConsonant then [m.toSchemeA.getD []] else []) ++
        ["#".data] ++
        (match aget m.letters [c] with
         | some temp => if temp = [] then [[c]] else [temp]
         | none => [[c]]) ++
        brahLoop m rest
          ⟨false,
           (match aget m.letters [c] with
            | some temp => decide (¬temp = []) && (m.toRoman && (aget m.consonants [c]).isSome)
            | none => false),
           false⟩ := by
  intro m st c rest hd hs hc hm
  rw [brahLoop]
  simp only [if_pos rfl, hd, if_neg (Bool.false_ne_true), if_neg hc]
  rw [brahLoop]
  simp only [if_neg hc, hs, if_neg (Bool.false_ne_true), hm]
  cases hl : aget m.letters [c] with
  | none => simp [hs]
  | some temp =>
    by_cases he : temp = []
    · simp [he, hs]
    · simp [he, hs]

/-- Witness for `lone_hash_spec`: the map of `registryC3`, initial state,
next character `x` (unmapped, not a vowel-mark). -/
theorem lone_hash_spec_witness :
    brahLoop mapC3 ('#' :: 'x' :: []) BrahState.init =
      (if BrahState.init.hadRomanConsonant then [mapC3.toSchemeA.getD []] else []) ++
      ["#".data] ++
      (match aget mapC3.letters ['x'] with
       | some temp => if temp = [] then [['x']] else [temp]
       | none => [['x']]) ++
      brahLoop mapC3 []
        ⟨false,
         (match aget mapC3.letters ['x'] with
          | some temp =>
            decide (¬temp = []) && (mapC3.toRoman && (aget mapC3.consonants ['x']).isSome)
          | none => false),
         false⟩ :=
  lone_hash_spec mapC3 BrahState.init 'x' [] rfl rfl (by decide) (by decide)

/-! ## C9: termination of the engines -/

lemma romInner_le (m : CompiledMap) (opts : Options) (count : Nat) (buffer : Str)
    (st : RomState) : (romInner m opts count buffer st).1.length ≤ buffer.length := by
  induction count generalizing buffer st with
  | zero => simp [romInner]
  | succ c ih =>
    rw [romInner]
    dsimp only
    repeat' split
    all_goals
      first
        | (simp only [List.length_drop]; omega)
        | exact ih _ _
        | simp

lemma romInner_consumes (m : CompiledMap) (opts : Options) :
    ∀ (count : Nat) (buffer : Str) (st : RomState), ¬buffer = [] →
    (romInner m opts (count + 1) buffer st).1.length < buffer.length := by
  intro count
  induction count with
  | zero =>
    intro buffer st hb
    have hl : 0 < buffer.length := List.length_pos.mpr hb
    rw [romInner]
    dsimp only
    repeat' split
    all_goals
      first
        | (simp only [List.length_drop]; omega)
        | simp_all
  | succ c ih =>
    intro buffer st hb
    have hl : 0 < buffer.length := List.length_pos.mpr hb
    rw [romInner]
    dsimp only
    repeat' split
    all_goals
      first
        | (simp only [List.length_drop]; omega)
        | exact ih _ _ hb
        | simp_all

lemma romLoop_isSome (m : CompiledMap) (opts : Options) (maxN : Nat) :
    ∀ (fuel : Nat) (rest buffer : Str) (st : RomState),
      2 * rest.length + buffer.length < fuel → (buffer = [] ∨ 1 ≤ maxN) →
      (romLoop m opts maxN fuel rest buffer st).isSome := by
  intro fuel
  induction fuel with
  | zero =>
    intro rest buffer st hm hinv
    omega
  | succ f ih =>
    intro rest buffer st hm hinv
    rw [romLoop.eq_def]
    dsimp only
    by_cases hstop : rest = [] ∧ buffer = []
    · rw [if_pos hstop]
      rfl
    · rw [if_neg hstop]
      cases rest with
      | nil =>
        have hb : ¬buffer = [] := fun hb2 => hstop ⟨rfl, hb2⟩
        have hmax : 1 ≤ maxN := by
          rcases hinv with hbuf | hmax
          · exact absurd hbuf hb
          · exact hmax
        cases maxN with
        | zero => omega
        | succ n =>
          dsimp only
          have hcons := romInner_consumes m opts n buffer st hb
          have hrec := ih [] (romInner m opts (n + 1) buffer st).1
            (romInner m opts (n + 1) buffer st).2.1
            (by simp only [List.length_nil] at hm ⊢; omega) (Or.inr (by omega))
          rcases Option.isSome_iff_exists.mp hrec with ⟨o, ho⟩
          rw [List.tail_nil, ho]
          rfl
      | cons c rest2 =>
        simp only [List.length_cons] at hm
        cases hfill : decide (buffer.length < maxN) with
        | true =>
          dsimp only
          have hmax : 1 ≤ maxN := by
            have := of_decide_eq_true hfill
            omega
          split_ifs with hcont
          · exact ih rest2 (buffer ++ [c]) st (by simp; omega) (Or.inr hmax)
          · cases maxN with
            | zero => omega
            | succ n =>
              have hb2 : ¬(buffer ++ [c]) = [] := by simp
              have hcons := romInner_consumes m opts n (buffer ++ [c]) st hb2
              have hlen : (buffer ++ [c]).length = buffer.length + 1 := by simp
              have hrec := ih rest2 (romInner m opts (n + 1) (buffer ++ [c]) st).1
                (romInner m opts (n + 1) (buffer ++ [c]) st).2.1
                (by omega) (Or.inr (by omega))
              rcases Option.isSome_iff_exists.mp hrec with ⟨o, ho⟩
              rw [ho]
              rfl
        | false =>
          dsimp only
          have hle := romInner_le m opts maxN buffer st
          have hinv2 : (romInner m opts maxN buffer st).1 = [] ∨ 1 ≤ maxN := by
            cases maxN with
            | zero =>
              rcases hinv with hbuf | hmax
              · subst hbuf
                exact Or.inl rfl
              · omega
            | succ n => exact Or.inr (by omega)
          have hrec := ih rest2 (romInner m opts maxN buffer st).1
            (romInner m opts maxN buffer st).2.1 (by omega) hinv2
          rcases Option.isSome_iff_exists.mp hrec with ⟨o, ho⟩
          rw [List.tail_cons, ho]
          rfl

/-- C9: the Roman engine terminates on every input and every compiled map:
`2·|data| + 1` iterations of the outer loop always suffice (each iteration
either consumes an input character or strictly shrinks the token buffer),
so the fuelled loop of the embedding returns a value; consequently
`transliterateRoman` never reaches its out-of-fuel branch.  The inner
longest-match loop tries at most `maxTokenLength` candidate lengths per
outer step, and every consumed token respects that bound. -/
theorem termination_spec :
    (∀ (m : CompiledMap) (opts : Options) (data : Str),
      (romLoop m opts (m.maxTokenLength.getD 0) (2 * data.length + 1) data []
        RomState.init).isSome) ∧
    (∀ (schemes : Registry) (data : Str) (m : CompiledMap) (opts : Options),
      ¬transliterateRoman schemes data m opts = Except.error "outOfFuel".data) ∧
    (∀ (m : CompiledMap) (opts : Options) (count : Nat) (buffer : Str) (st : RomState),
      ∀ ev ∈ (romInner m opts count buffer st).2.2, ev.token.length ≤ count) := by
  have h1 : ∀ (m : CompiledMap) (opts : Options) (data : Str),
      (romLoop m opts (m.maxTokenLength.getD 0) (2 * data.length + 1) data []
        RomState.init).isSome := by
    intro m opts data
    exact romLoop_isSome m opts (m.maxTokenLength.getD 0) (2 * data.length + 1) data []
      RomState.init (by simp) (Or.inl rfl)
  refine ⟨h1, ?_, romInner_token_le⟩
  intro schemes data m opts hcontra
  unfold transliterateRoman at hcontra
  cases hrun : romRun m opts data with
  | none =>
    have := h1 m opts data
    unfold romRun at hrun
    rw [hrun] at this
    simp at this
  | some out =>
    rw [hrun] at hcontra
    obtain ⟨evs, st⟩ := out
    dsimp only at hcontra
    repeat' split at hcontra
    all_goals
      first
        | exact Except.noConfusion hcontra
        | exact absurd (Except.error.inj hcontra) (by decide)

/-- Witness for `termination_spec`, at the concrete map of `registryC3`
(as target map, Roman side) and the input `"क"`. -/
theorem termination_spec_witness :
    (romLoop mapC6 defaults (mapC6.maxTokenLength.getD 0) (2 * ("क".data).length + 1)
      "क".data [] RomState.init).isSome ∧
    ¬transliterateRoman registryC6 "क".data mapC6 defaults =
      Except.error "outOfFuel".data ∧
    ∀ ev ∈ (romInner mapC6 defaults 1 "क".data RomState.init).2.2,
      ev.token.length ≤ 1 :=
  ⟨termination_spec.1 mapC6 defaults "क".data,
   termination_spec.2.1 registryC6 "क".data mapC6 defaults,
   termination_spec.2.2 mapC6 defaults 1 "क".data RomState.init⟩

/-! ## C1: virama placement in the Roman engine -/

def schemeC1from : Scheme :=
  { groups := [(gVowels, [(aKey, "a".data), ("इ".data, "i".data)]),
      (gVowelMarks, [("ि".data, "i".data)]),
      (gConsonants, [("म".data, "m".data), ("ख".data, "kh".data)])]
    alternates := []
    accentedVowelAlternates := []
    isRomanScheme := true
    shortcuts := [] }

def schemeC1to : Scheme :=
  { groups := [(gVowels, [(aKey, "अ".data), ("इ".data, "इ".data)]),
      (gVowelMarks, [("ि".data, "ि".data)]),
      (gConsonants, [("म".data, "म".data), ("ख".data, "ख".data)]),
      (gVirama, [(viramaKey, "्".data)])]
    alternates := []
    accentedVowelAlternates := []
    isRomanScheme := false
    shortcuts := [] }

def registryC1 : Registry :=
  [("f1".data, schemeC1from), ("t1".data, schemeC1to)]

/-- The compiled map of `registryC1` (Roman source, Brahmic target,
`maxTokenLength` 2). -/
def mapC1 : CompiledMap :=
  match makeMap registryC1 "f1".data "t1".data with
  | Except.ok m => m
  | Except.error _ => ⟨[], [], false, [], [], none, false, none, none, none, [], []⟩

lemma mapC1_eq : makeMap registryC1 "f1".data "t1".data = Except.ok mapC1 := rfl

/-- Whether the previously consumed token was a consonant. -/
def prevCons (m : CompiledMap) : Option Str → Prop
  | some tk => (aget m.consonants tk).isSome
  | none => False

/-- The token of the last event, if any. -/
def lastTok (prev : Option Str) (evs : List RomEvent) : Option Str :=
  match evs.getLast? with
  | some e => some e.token
  | none => prev

/-- The virama condition of claim C1 at one step: the step pushed the
virama exactly when the previously consumed token was a consonant, the
current token is not a vowel-mark form, not the source short-a, and (when
it is unmatched) syncope is off. -/
def viramaRel (m : CompiledMap) (opts : Options) (prev : Option Str) (e : RomEvent) : Prop :=
  e.viramaB = true ↔
    (prevCons m prev ∧ aget m.marks e.token = none ∧ ¬m.fromSchemeA = some e.token ∧
      ((aget m.letters e.token).isSome ∨ opts.syncope = false))

/-- The virama condition along a whole trace. -/
def traceOk (m : CompiledMap) (opts : Options) : Option Str → List RomEvent → Prop
  | _, [] => True
  | prev, e :: es => viramaRel m opts prev e ∧ traceOk m opts (some e.token) es

/-- Counterexample to C1: on `"m##i##"` the engine consumes the tokens `m`,
`##`, `i` (inside the toggled region), `##`; the third consumption (index
2) pushes a virama even though its token `i` is a vowel-mark form of the
source scheme — inside a `##`-toggled region every character goes through
the unmatched branch, which emits a virama after a consonant regardless of
the token's class — so the claimed if-and-only-if fails.  The final output
is `"म्i"`. -/
theorem virama_counterexample :
    ∃ evs st2, romRun mapC1 defaults "m##i##".data = some (evs, st2) ∧
      (∃ e, evs[2]? = some e ∧ e.viramaB = true ∧ e.token = "i".data ∧
        (aget mapC1.marks e.token).isSome) ∧
      transliterateRoman registryC1 "m##i##".data mapC1 defaults =
        Except.ok "म्i".data := by
  refine ⟨_, _, rfl, ⟨_, rfl, ?_, ?_, ?_⟩, rfl⟩ <;> decide

/-! ### C1 amended: characterization of virama placement on hash-free input -/

lemma romInner_succ_eq (m : CompiledMap) (opts : Options) (c : Nat) (buffer : Str)
    (st : RomState) (hsgml : st.skippingSGML = false) (hsg : opts.skip_sgml = false)
    (htog : st.toggledTrans = false) (hnb : '#' ∉ buffer) :
    romInner m opts (c + 1) buffer st =
      (match aget m.letters (buffer.take (c + 1)) with
       | some L =>
         (buffer.drop (c + 1),
          ⟨(romLetterEmit m (buffer.take (c + 1)) L st.hadConsonant).2.2, false, false⟩,
          [⟨buffer.take (c + 1), (romLetterEmit m (buffer.take (c + 1)) L st.hadConsonant).2.1,
            (romLetterEmit m (buffer.take (c + 1)) L st.hadConsonant).1⟩])
       | none =>
         if c = 0 then
           (buffer.drop 1, ⟨false, false, false⟩,
            [⟨buffer.take (c + 1), (romFallbackEmit m opts (buffer.take (c + 1)) st.hadConsonant).2,
              (romFallbackEmit m opts (buffer.take (c + 1)) st.hadConsonant).1⟩])
         else romInner m opts c buffer ⟨st.hadConsonant, false, false⟩) := by
  obtain ⟨hc0, sg0, tg0⟩ := st
  dsimp only at hsgml htog
  subst hsgml
  subst htog
  have hhash : ¬((false : Bool) = false ∧ buffer.take (c + 1) = ['#', '#']) := by
    rintro ⟨-, ht⟩
    exact hnb (List.take_subset (c + 1) buffer (ht ▸ (by simp : '#' ∈ (['#', '#'] : Str))))
  rw [romInner]
  dsimp only
  rw [if_neg hhash, hsg]
  simp only [Bool.false_eq_true, if_false, ite_self, Bool.or_self]
  cases aget m.letters (List.take (c + 1) buffer) <;> rfl

lemma lastTok_cons (prev : Option Str) (e : RomEvent) (es : List RomEvent) :
    lastTok prev (e :: es) = lastTok (some e.token) es := by
  cases es with
  | nil => rfl
  | cons e2 es2 =>
    unfold lastTok
    rw [List.getLast?_cons_cons]
    cases h : (e2 :: es2).getLast? with
    | some x => rfl
    | none => simp at h

lemma traceOk_append (m : CompiledMap) (opts : Options) :
    ∀ (evs1 evs2 : List RomEvent) (prev : Option Str),
      traceOk m opts prev (evs1 ++ evs2) ↔
        traceOk m opts prev evs1 ∧ traceOk m opts (lastTok prev evs1) evs2 := by
  intro evs1
  induction evs1 with
  | nil => intro evs2 prev; simp [traceOk, lastTok]
  | cons e es ih =>
    intro evs2 prev
    simp only [List.cons_append, traceOk, List.append_eq, ih, lastTok_cons, and_assoc]

lemma lastTok_append (prev : Option Str) (evs1 evs2 : List RomEvent) :
    lastTok prev (evs1 ++ evs2) = lastTok (lastTok prev evs1) evs2 := by
  induction evs1 generalizing prev with
  | nil => rfl
  | cons e es ih => rw [List.cons_append, lastTok_cons, lastTok_cons, ih]

lemma romLetterEmit_had (m : CompiledMap) (token tempLetter : Str) (hadC : Bool)
    (hrom : m.toRoman = false) :
    (romLetterEmit m token tempLetter hadC).2.2 = (aget m.consonants token).isSome := by
  rw [romLetterEmit, if_neg (by rw [hrom]; exact Bool.false_ne_true)]
  dsimp only
  split
  · split
    · rfl
    · split <;> rfl
  · rfl

lemma romLetterEmit_viramaRel (m : CompiledMap) (opts : Options) (prev : Option Str)
    (token L : Str) (hadC : Bool) (hrom : m.toRoman = false)
    (hw3 : ∀ v, aget m.marks token = some v → ¬v = [])
    (hhad : hadC = true ↔ prevCons m prev)
    (hlet : aget m.letters token = some L) :
    viramaRel m opts prev
      ⟨token, (romLetterEmit m token L hadC).2.1, (romLetterEmit m token L hadC).1⟩ := by
  unfold viramaRel
  dsimp only
  rw [romLetterEmit, if_neg (by rw [hrom]; exact Bool.false_ne_true)]
  dsimp only
  cases hc : hadC with
  | false =>
    rw [if_neg Bool.false_ne_true]
    dsimp only
    constructor
    · intro hfalse; exact absurd hfalse Bool.false_ne_true
    · rintro ⟨hp, -⟩
      exact absurd (hc.symm.trans (hhad.mpr hp)) Bool.false_ne_true
  | true =>
    rw [if_pos rfl]
    cases hmk : aget m.marks token with
    | some v =>
      dsimp only
      rw [if_pos (by rw [decide_eq_true_eq]; exact hw3 v hmk)]
      dsimp only
      constructor
      · intro hfalse; exact absurd hfalse Bool.false_ne_true
      · rintro ⟨-, hnone, -⟩
        exact absurd hnone (Option.some_ne_none v)
    | none =>
      dsimp only
      rw [if_neg Bool.false_ne_true]
      by_cases hfa : m.fromSchemeA = some token
      · rw [if_neg (by simp [hfa])]
        dsimp only
        constructor
        · intro hfalse; exact absurd hfalse Bool.false_ne_true
        · rintro ⟨-, -, hne, -⟩; exact absurd hfa hne
      · rw [if_pos (by rw [decide_eq_true_eq]; exact hfa)]
        dsimp only
        constructor
        · intro _
          exact ⟨hhad.mp hc, rfl, hfa, Or.inl (by rw [hlet]; rfl)⟩
        · intro _; rfl

lemma romFallbackEmit_viramaRel (m : CompiledMap) (opts : Options) (prev : Option Str)
    (token : Str) (hadC : Bool)
    (hmk : aget m.marks token = none) (hfa : ¬m.fromSchemeA = some token)
    (hletn : aget m.letters token = none)
    (hhad : hadC = true ↔ prevCons m prev) :
    viramaRel m opts prev
      ⟨token, (romFallbackEmit m opts token hadC).2, (romFallbackEmit m opts token hadC).1⟩ := by
  unfold viramaRel
  dsimp only
  rw [romFallbackEmit]
  cases hc : hadC with
  | false =>
    rw [if_neg Bool.false_ne_true]
    dsimp only
    constructor
    · intro hfalse; exact absurd hfalse Bool.false_ne_true
    · rintro ⟨hp, -⟩
      exact absurd (hc.symm.trans (hhad.mpr hp)) Bool.false_ne_true
  | true =>
    rw [if_pos rfl]
    cases hsy : opts.syncope with
    | true =>
      rw [if_pos rfl]
      dsimp only
      constructor
      · intro hfalse; exact absurd hfalse Bool.false_ne_true
      · rintro ⟨-, -, -, hor⟩
        rcases hor with hsome | hsyf
        · rw [hletn] at hsome; exact absurd hsome Bool.false_ne_true
        · exact absurd hsyf (by decide)
    | false =>
      rw [if_neg Bool.false_ne_true]
      dsimp only
      exact ⟨fun _ => ⟨hhad.mp hc, hmk, hfa, Or.inr rfl⟩, fun _ => rfl⟩

lemma romInner_step (m : CompiledMap) (opts : Options)
    (hrom : m.toRoman = false) (hsg : opts.skip_sgml = false)
    (hw1 : ∀ k, (aget m.consonants k).isSome = true → (aget m.letters k).isSome = true)
    (hw2 : ∀ k, (aget m.marks k).isSome = true → (aget m.letters k).isSome = true)
    (hw3 : ∀ k v, aget m.marks k = some v → ¬v = [])
    (hw4 : ∀ s, m.fromSchemeA = some s → (aget m.letters s).isSome = true) :
    ∀ (count : Nat) (buffer : Str) (st : RomState) (prev : Option Str),
      '#' ∉ buffer → st.skippingSGML = false → st.toggledTrans = false →
      (st.hadConsonant = true ↔ prevCons m prev) →
      (romInner m opts count buffer st).2.1.skippingSGML = false ∧
      (romInner m opts count buffer st).2.1.toggledTrans = false ∧
      (∀ x ∈ (romInner m opts count buffer st).1, x ∈ buffer) ∧
      traceOk m opts prev (romInner m opts count buffer st).2.2 ∧
      ((romInner m opts count buffer st).2.1.hadConsonant = true ↔
        prevCons m (lastTok prev (romInner m opts count buffer st).2.2)) := by
  intro count
  induction count with
  | zero =>
    intro buffer st prev hnb hsgml htog hhad
    exact ⟨hsgml, htog, fun x hx => hx, trivial, hhad⟩
  | succ c ih =>
    intro buffer st prev hnb hsgml htog hhad
    rw [romInner_succ_eq m opts c buffer st hsgml hsg htog hnb]
    cases hlet : aget m.letters (buffer.take (c + 1)) with
    | some L =>
      dsimp only
      refine ⟨rfl, rfl, fun x hx => List.drop_subset _ _ hx, ?_, ?_⟩
      · exact ⟨romLetterEmit_viramaRel m opts prev _ L st.hadConsonant hrom
          (fun v => hw3 _ v) hhad hlet, trivial⟩
      · dsimp only [lastTok, List.getLast?]
        rw [romLetterEmit_had m _ L st.hadConsonant hrom]
        exact Iff.rfl
    | none =>
      by_cases hc0 : c = 0
      · subst hc0
        dsimp only
        rw [if_pos rfl]
        dsimp only
        have hmk : aget m.marks (buffer.take (0 + 1)) = none := by
          cases hmk2 : aget m.marks (buffer.take (0 + 1)) with
          | none => rfl
          | some v =>
            have := hw2 (buffer.take (0 + 1)) (by rw [hmk2]; rfl)
            rw [hlet] at this
            exact absurd this Bool.false_ne_true
        have hfa : ¬m.fromSchemeA = some (buffer.take (0 + 1)) := by
          intro hfa2
          have := hw4 _ hfa2
          rw [hlet] at this
          exact absurd this Bool.false_ne_true
        refine ⟨rfl, rfl, fun x hx => List.drop_subset _ _ hx, ?_, ?_⟩
        · exact ⟨romFallbackEmit_viramaRel m opts prev _ st.hadConsonant hmk hfa hlet hhad,
            trivial⟩
        · have hnc : (aget m.consonants (buffer.take (0 + 1))).isSome = false := by
            cases hnc2 : (aget m.consonants (buffer.take (0 + 1))).isSome with
            | false => rfl
            | true =>
              have := hw1 _ hnc2
              rw [hlet] at this
              exact absurd this Bool.false_ne_true
          dsimp only [lastTok, List.getLast?]
          constructor
          · intro hfalse; exact absurd hfalse Bool.false_ne_true
          · intro hp
            exact absurd
              ((show (aget m.consonants (buffer.take (0 + 1))).isSome = true from hp).symm.trans
                hnc).symm Bool.false_ne_true
      · dsimp only
        rw [if_neg hc0]
        exact ih buffer ⟨st.hadConsonant, false, false⟩ prev hnb rfl rfl hhad

lemma romLoop_step (m : CompiledMap) (opts : Options) (maxN : Nat)
    (hrom : m.toRoman = false) (hsg : opts.skip_sgml = false)
    (hw1 : ∀ k, (aget m.consonants k).isSome = true → (aget m.letters k).isSome = true)
    (hw2 : ∀ k, (aget m.marks k).isSome = true → (aget m.letters k).isSome = true)
    (hw3 : ∀ k v, aget m.marks k = some v → ¬v = [])
    (hw4 : ∀ s, m.fromSchemeA = some s → (aget m.letters s).isSome = true) :
    ∀ (fuel : Nat) (rest buffer : Str) (st : RomState) (prev : Option Str)
      (evs : List RomEvent) (st2 : RomState),
      '#' ∉ rest → '#' ∉ buffer →
      st.skippingSGML = false → st.toggledTrans = false →
      (st.hadConsonant = true ↔ prevCons m prev) →
      romLoop m opts maxN fuel rest buffer st = some (evs, st2) →
      traceOk m opts prev evs ∧
        (st2.hadConsonant = true ↔ prevCons m (lastTok prev evs)) := by
  intro fuel
  induction fuel with
  | zero => intro rest buffer st prev evs st2 _ _ _ _ _ h; simp [romLoop] at h
  | succ f ih =>
    intro rest buffer st prev evs st2 hnr hnb hsgml htog hhad h
    rw [romLoop.eq_def] at h
    dsimp only at h
    by_cases hstop : rest = [] ∧ buffer = []
    · rw [if_pos hstop] at h
      simp only [Option.some.injEq, Prod.mk.injEq] at h
      obtain ⟨rfl, rfl⟩ := h
      exact ⟨trivial, hhad⟩
    · rw [if_neg hstop] at h
      cases rest with
      | nil =>
        dsimp only at h
        rcases Option.map_eq_some'.mp h with ⟨o, ho, hfo⟩
        simp only [Prod.mk.injEq] at hfo
        obtain ⟨rfl, rfl⟩ := hfo
        obtain ⟨hsg1, htg1, hsub, htr, hhad1⟩ :=
          romInner_step m opts hrom hsg hw1 hw2 hw3 hw4 maxN buffer st prev hnb hsgml htog hhad
        have hnb1 : '#' ∉ (romInner m opts maxN buffer st).1 := fun hm => hnb (hsub _ hm)
        have hrec := ih [] _ _ (lastTok prev (romInner m opts maxN buffer st).2.2) o.1 o.2
          (by simp) hnb1 hsg1 htg1 hhad1 ho
        refine ⟨(traceOk_append m opts _ _ prev).mpr ⟨htr, hrec.1⟩, ?_⟩
        rw [lastTok_append]
        exact hrec.2
      | cons ch rest2 =>
        have hne : ¬ch = '#' := fun he => hnr (he ▸ List.mem_cons_self ch rest2)
        have hnr2 : '#' ∉ rest2 := fun hm => hnr (List.mem_cons_of_mem ch hm)
        have hnb2 : '#' ∉ buffer ++ [ch] := by
          intro hm
          rcases List.mem_append.mp hm with hm | hm
          · exact hnb hm
          · exact hne (List.mem_singleton.mp hm).symm
        cases hfill : decide (buffer.length < maxN) with
        | true =>
          rw [hfill] at h
          dsimp only at h
          split_ifs at h with hcont
          · exact ih rest2 _ _ prev evs st2 hnr2 hnb2 hsgml htog hhad h
          · rcases Option.map_eq_some'.mp h with ⟨o, ho, hfo⟩
            simp only [Prod.mk.injEq] at hfo
            obtain ⟨rfl, rfl⟩ := hfo
            obtain ⟨hsg1, htg1, hsub, htr, hhad1⟩ :=
              romInner_step m opts hrom hsg hw1 hw2 hw3 hw4 maxN (buffer ++ [ch]) st prev
                hnb2 hsgml htog hhad
            have hnb1 : '#' ∉ (romInner m opts maxN (buffer ++ [ch]) st).1 :=
              fun hm => hnb2 (hsub _ hm)
            have hrec := ih rest2 _ _
              (lastTok prev (romInner m opts maxN (buffer ++ [ch]) st).2.2) o.1 o.2
              hnr2 hnb1 hsg1 htg1 hhad1 ho
            refine ⟨(traceOk_append m opts _ _ prev).mpr ⟨htr, hrec.1⟩, ?_⟩
            rw [lastTok_append]
            exact hrec.2
        | false =>
          rw [hfill] at h
          dsimp only at h
          rcases Option.map_eq_some'.mp h with ⟨o, ho, hfo⟩
          simp only [Prod.mk.injEq] at hfo
          obtain ⟨rfl, rfl⟩ := hfo
          obtain ⟨hsg1, htg1, hsub, htr, hhad1⟩ :=
            romInner_step m opts hrom hsg hw1 hw2 hw3 hw4 maxN buffer st prev
              hnb hsgml htog hhad
          have hnb1 : '#' ∉ (romInner m opts maxN buffer st).1 := fun hm => hnb (hsub _ hm)
          have hrec := ih rest2 _ _
            (lastTok prev (romInner m opts maxN buffer st).2.2) o.1 o.2
            hnr2 hnb1 hsg1 htg1 hhad1 ho
          refine ⟨(traceOk_append m opts _ _ prev).mpr ⟨htr, hrec.1⟩, ?_⟩
          rw [lastTok_append]
          exact hrec.2

lemma aget_eq_some_mem (l : List (Str × Str)) (k v : Str) (h : aget l k = some v) :
    ∃ p ∈ l, p.1 = k ∧ p.2 = v := by
  unfold aget at h
  rcases Option.map_eq_some'.mp h with ⟨q, hq, hv⟩
  refine ⟨q, List.mem_of_find?_eq_some hq, ?_, hv⟩
  have := List.find?_some hq
  rwa [decide_eq_true_eq] at this

lemma aget_isSome_mem (l : List (Str × Str)) (k : Str) (h : (aget l k).isSome = true) :
    ∃ p ∈ l, p.1 = k := by
  rcases Option.isSome_iff_exists.mp h with ⟨v, hv⟩
  rcases aget_eq_some_mem l k v hv with ⟨p, hp, hk, -⟩
  exact ⟨p, hp, hk⟩

/-- C1 (amended): on hash-free Roman input to a Brahmic target with
`skip_sgml` off, and for a compiled map whose consonant, mark and short-a
tables are consistent with its letters table (as every `makeMap` output
is), the engine pushes a virama at a consumption step exactly when the
previously consumed token was a consonant and the current token is neither
a vowel-mark form nor the source scheme's short-a, where for an unmatched
token the push additionally requires `syncope` to be off (`traceOk`
unfolds to exactly this if-and-only-if at every step); moreover the final
`hadConsonant` flag records whether the last consumed token was a
consonant, and (for a map without accent entries) the engine output is the
concatenation of the per-step pushes followed by a final virama exactly
when the last token was a consonant and `syncope` is off. -/
theorem virama_spec (m : CompiledMap) (opts : Options) (data : Str)
    (evs : List RomEvent) (st2 : RomState)
    (hrom : m.toRoman = false) (hsg : opts.skip_sgml = false) (hnd : '#' ∉ data)
    (hw1 : ∀ p ∈ m.consonants, (aget m.letters p.1).isSome = true)
    (hw2 : ∀ p ∈ m.marks, (aget m.letters p.1).isSome = true)
    (hw3 : ∀ p ∈ m.marks, ¬p.2 = [])
    (hw4 : ∀ s ∈ m.fromSchemeA.toList, (aget m.letters s).isSome = true)
    (hrun : romRun m opts data = some (evs, st2)) :
    traceOk m opts none evs ∧
      (st2.hadConsonant = true ↔ prevCons m (lastTok none evs)) ∧
      ∀ schemes, m.accents = [] →
        transliterateRoman schemes data m opts =
          Except.ok ((flattenEmits evs ++
            (if st2.hadConsonant ∧ opts.syncope = false then [m.virama.getD []]
             else [])).flatten) := by
  have hw1s : ∀ k, (aget m.consonants k).isSome = true → (aget m.letters k).isSome = true := by
    intro k hk
    obtain ⟨p, hp, hpk⟩ := aget_isSome_mem _ _ hk
    exact hpk ▸ hw1 p hp
  have hw2s : ∀ k, (aget m.marks k).isSome = true → (aget m.letters k).isSome = true := by
    intro k hk
    obtain ⟨p, hp, hpk⟩ := aget_isSome_mem _ _ hk
    exact hpk ▸ hw2 p hp
  have hw3s : ∀ k v, aget m.marks k = some v → ¬v = [] := by
    intro k v hk
    obtain ⟨p, hp, -, hv⟩ := aget_eq_some_mem _ _ _ hk
    exact hv ▸ hw3 p hp
  have hw4s : ∀ s, m.fromSchemeA = some s → (aget m.letters s).isSome = true := by
    intro s hs
    exact hw4 s (by rw [hs]; exact List.mem_singleton_self s)
  obtain ⟨h1, h2⟩ := romLoop_step m opts (m.maxTokenLength.getD 0) hrom hsg hw1s hw2s hw3s hw4s
    (2 * data.length + 1) data [] RomState.init none evs st2 hnd (by simp) rfl rfl
    ⟨fun h => absurd h (by decide), False.elim⟩ hrun
  refine ⟨h1, h2, ?_⟩
  intro schemes hacc
  unfold transliterateRoman
  rw [hrun]
  dsimp only
  rw [if_neg (fun hcon => hcon.2 hacc)]

/-- The run of the C1 witness input `"kham"` on the compiled map of
`registryC1`. -/
def romC1w : List RomEvent × RomState :=
  (romRun mapC1 defaults "kham".data).getD ([], RomState.init)

theorem virama_spec_witness :
    traceOk mapC1 defaults none romC1w.1 ∧
      (romC1w.2.hadConsonant = true ↔ prevCons mapC1 (lastTok none romC1w.1)) ∧
      transliterateRoman registryC1 "kham".data mapC1 defaults =
        Except.ok ((flattenEmits romC1w.1 ++
          (if romC1w.2.hadConsonant ∧ defaults.syncope = false then [mapC1.virama.getD []]
           else [])).flatten) := by
  obtain ⟨a, b, c⟩ := virama_spec mapC1 defaults "kham".data romC1w.1 romC1w.2 (by decide)
    (by decide) (by decide) (by decide) (by decide) (by decide) (by decide) rfl
  exact ⟨a, b, c registryC1 (by decide)⟩

/-! ## C7: the audio-number round trip -/

/-- Well-formedness of audio markers: after each marker that is followed by
a digit, the maximal run of `[0-9a-z]` characters is covered by the regex
match `\\d+[a-z]?` (digits plus at most one trailing letter); scanning
resumes after the match. -/
def audioWfF : Nat → Str → Bool
  | 0, _ => true
  | _ + 1, [] => true
  | fuel + 1, c :: rest =>
    if c = audioMark then
      (decide (rest.takeWhile Char.isDigit = []) ||
        decide (audioNumRest rest = rest.takeWhile isAzDigit)) &&
      audioWfF fuel (rest.drop (audioNumRest rest).length)
    else audioWfF fuel rest

def audioWf (s : Str) : Bool := audioWfF s.length s

lemma splitAudioF_fuel : ∀ (f1 f2 : Nat) (s : Str), s.length ≤ f1 → s.length ≤ f2 →
    splitAudioF f1 s = splitAudioF f2 s := by
  intro f1
  induction f1 with
  | zero =>
    intro f2 s h1 h2
    have : s = [] := List.eq_nil_of_length_eq_zero (Nat.le_zero.mp h1)
    subst this
    cases f2 <;> rfl
  | succ f ih =>
    intro f2 s h1 h2
    cases s with
    | nil => cases f2 <;> rfl
    | cons c rest =>
      cases f2 with
      | zero => exact absurd h2 (by simp)
      | succ g =>
        rw [splitAudioF, splitAudioF]
        have hlr : rest.length ≤ f := by
          simp at h1; omega
        have hlg : rest.length ≤ g := by
          simp at h2; omega
        by_cases hc : c = audioMark
        · rw [if_pos hc, if_pos hc]
          dsimp only
          rw [ih g (rest.drop (audioNumRest rest).length)
            (le_trans (List.length_drop _ _ ▸ Nat.sub_le _ _) hlr)
            (le_trans (List.length_drop _ _ ▸ Nat.sub_le _ _) hlg)]
        · rw [if_neg hc, if_neg hc, ih g rest hlr hlg]

lemma replaceAudioF_fuel : ∀ (f1 f2 : Nat) (s : Str), s.length ≤ f1 → s.length ≤ f2 →
    replaceAudioF f1 s = replaceAudioF f2 s := by
  intro f1
  induction f1 with
  | zero =>
    intro f2 s h1 h2
    have : s = [] := List.eq_nil_of_length_eq_zero (Nat.le_zero.mp h1)
    subst this
    cases f2 <;> rfl
  | succ f ih =>
    intro f2 s h1 h2
    cases s with
    | nil => cases f2 <;> rfl
    | cons c rest =>
      cases f2 with
      | zero => exact absurd h2 (by simp)
      | succ g =>
        rw [replaceAudioF, replaceAudioF]
        have hlr : rest.length ≤ f := by simp at h1; omega
        have hlg : rest.length ≤ g := by simp at h2; omega
        by_cases hc : c = audioMark
        · rw [if_pos hc, if_pos hc,
            ih g (rest.drop (audioNumRest rest).length)
              (le_trans (List.length_drop _ _ ▸ Nat.sub_le _ _) hlr)
              (le_trans (List.length_drop _ _ ▸ Nat.sub_le _ _) hlg)]
        · rw [if_neg hc, if_neg hc, ih g rest hlr hlg]

lemma audioWfF_fuel : ∀ (f1 f2 : Nat) (s : Str), s.length ≤ f1 → s.length ≤ f2 →
    audioWfF f1 s = audioWfF f2 s := by
  intro f1
  induction f1 with
  | zero =>
    intro f2 s h1 h2
    have : s = [] := List.eq_nil_of_length_eq_zero (Nat.le_zero.mp h1)
    subst this
    cases f2 <;> rfl
  | succ f ih =>
    intro f2 s h1 h2
    cases s with
    | nil => cases f2 <;> rfl
    | cons c rest =>
      cases f2 with
      | zero => exact absurd h2 (by simp)
      | succ g =>
        rw [audioWfF, audioWfF]
        have hlr : rest.length ≤ f := by simp at h1; omega
        have hlg : rest.length ≤ g := by simp at h2; omega
        by_cases hc : c = audioMark
        · rw [if_pos hc, if_pos hc,
            ih g (rest.drop (audioNumRest rest).length)
              (le_trans (List.length_drop _ _ ▸ Nat.sub_le _ _) hlr)
              (le_trans (List.length_drop _ _ ▸ Nat.sub_le _ _) hlg)]
        · rw [if_neg hc, if_neg hc, ih g rest hlr hlg]

lemma takeWhile_prefix_drop {p : Char → Bool} (s : Str) :
    s.takeWhile p ++ s.drop (s.takeWhile p).length = s := by
  induction s with
  | nil => rfl
  | cons c t ih =>
    rw [List.takeWhile_cons]
    cases hp : p c with
    | false => simp
    | true =>
      rw [if_pos rfl]
      simp only [List.length_cons, List.cons_append, List.drop_succ_cons]
      rw [ih]

lemma audioNumRest_prefix (s : Str) :
    audioNumRest s ++ s.drop (audioNumRest s).length = s := by
  rw [audioNumRest]
  by_cases hds : s.takeWhile Char.isDigit = []
  · rw [if_pos hds]
    simp
  · rw [if_neg hds]
    cases hdrop : s.drop (s.takeWhile Char.isDigit).length with
    | nil => exact takeWhile_prefix_drop s
    | cons c t =>
      dsimp only
      by_cases hl : (decide ('a' ≤ c) && decide (c ≤ 'z')) = true
      · rw [if_pos hl]
        have hdt : s.drop ((s.takeWhile Char.isDigit).length + 1) = t := by
          rw [← List.drop_drop, hdrop]
          rfl
        have hlen : (s.takeWhile Char.isDigit ++ [c]).length
            = (s.takeWhile Char.isDigit).length + 1 := by simp
        rw [hlen, hdt]
        have hs : s.takeWhile Char.isDigit ++ (c :: t) = s := by
          rw [← hdrop]
          exact takeWhile_prefix_drop s
        rw [List.append_assoc, List.singleton_append]
        exact hs
      · rw [if_neg hl]
        exact takeWhile_prefix_drop s

lemma pickNum_shift (c : Char) (t : Str) (j : Nat) :
    pickNum (c :: t) (j + 1) = ((pickNum t j).1, (pickNum t j).2 + 1) := by
  rw [pickNum, pickNum]
  dsimp only
  rw [List.getElem?_cons_succ]
  cases t[j + 1]? with
  | none => rfl
  | some d =>
    dsimp only
    by_cases hd : d.isDigit = true
    · rw [if_pos hd, if_pos hd]
      have : (c :: t).drop (j + 1 + 1 + 1) = t.drop (j + 1 + 1) := by
        rw [List.drop_succ_cons]
      rw [this]
      simp only [Prod.mk.injEq]
      exact ⟨trivial, by omega⟩
    · rw [if_neg hd, if_neg hd]

lemma pickLoop_shift (c : Char) (t : Str) :
    ∀ (segs : List Str) (idx : Nat),
      pickLoop (c :: t) segs (idx + 1) = pickLoop t segs idx := by
  intro segs
  induction segs with
  | nil => intro idx; rfl
  | cons seg segs ih =>
    intro idx
    rw [pickLoop, pickLoop]
    dsimp only
    have harith : idx + 1 + seg.length = idx + seg.length + 1 := by omega
    rw [harith]
    by_cases hb : idx + seg.length < t.length
    · rw [if_pos (by simp only [List.length_cons]; omega), if_pos hb]
      rw [pickNum_shift]
      dsimp only
      rw [ih]
    · rw [if_neg (by simp only [List.length_cons]; omega), if_neg hb]
      exact ih _

lemma pickLoop_shift_pre (pre : Str) :
    ∀ (t : Str) (segs : List Str) (idx : Nat),
      pickLoop (pre ++ t) segs (pre.length + idx) = pickLoop t segs idx := by
  induction pre with
  | nil => intro t segs idx; simp
  | cons c pre2 ih =>
    intro t segs idx
    have : (c :: pre2).length + idx = (pre2.length + idx) + 1 := by simp; omega
    rw [this, List.cons_append, pickLoop_shift, ih]

lemma pickLoop_head_len (t : Str) (s1 s2 : List Char) (segs : List Str) (idx1 idx2 : Nat)
    (h : idx1 + s1.length = idx2 + s2.length) :
    pickLoop t (s1 :: segs) idx1 = pickLoop t (s2 :: segs) idx2 := by
  rw [pickLoop, pickLoop]
  dsimp only
  rw [h]

lemma refill_shift (a : Str) (audios : List Str) :
    ∀ (t : Str) (idx : Nat),
      refillAudioNumbers (a :: audios) (idx + 1) t = refillAudioNumbers audios idx t := by
  intro t
  induction t with
  | nil => intro idx; rfl
  | cons c rest ih =>
    intro idx
    rw [refillAudioNumbers, refillAudioNumbers]
    by_cases hc : c = audioMark
    · rw [if_pos hc, if_pos hc]
      rw [List.getElem?_cons_succ, ih]
    · rw [if_neg hc, if_neg hc, ih]

lemma splitAudioF_fst_ne : ∀ (fuel : Nat) (s : Str), ¬(splitAudioF fuel s).1 = [] := by
  intro fuel
  induction fuel with
  | zero => intro s; rw [splitAudioF]; simp
  | succ f ih =>
    intro s
    cases s with
    | nil => rw [splitAudioF]; simp
    | cons c rest =>
      rw [splitAudioF]
      dsimp only
      by_cases hc : c = audioMark
      · rw [if_pos hc]; simp
      · rw [if_neg hc]
        cases hsp : splitAudioF f rest with
        | mk segs ms =>
          cases segs with
          | nil => exact absurd (by rw [hsp] : (splitAudioF f rest).1 = []) (ih rest)
          | cons seg segs2 => simp

lemma isAzDigit_of_digit (c : Char) (h : c.isDigit = true) : isAzDigit c = true := by
  rw [isAzDigit, h]
  rfl

lemma pickNum_marker (rest : Str)
    (hcond : rest.takeWhile Char.isDigit = [] ∨
      audioNumRest rest = rest.takeWhile isAzDigit) :
    pickNum (audioMark :: rest) 0 =
      (audioNumRest rest, 1 + (audioNumRest rest).length) := by
  cases rest with
  | nil => rfl
  | cons d rest1 =>
    rw [pickNum]
    dsimp only
    rw [List.getElem?_cons_succ, List.getElem?_cons_zero]
    dsimp only
    by_cases hd : d.isDigit = true
    · rw [if_pos hd]
      have hds : ¬(d :: rest1).takeWhile Char.isDigit = [] := by
        rw [List.takeWhile_cons, hd]
        simp
      have hnum : audioNumRest (d :: rest1) = d :: rest1.takeWhile isAzDigit := by
        rcases hcond with h | h
        · exact absurd h hds
        · rw [h, List.takeWhile_cons, isAzDigit_of_digit d hd]
          rfl
      have hdrop : List.drop (0 + 1 + 1) (audioMark :: d :: rest1) = rest1 := rfl
      rw [hdrop, hnum]
      simp only [Prod.mk.injEq, List.length_cons]
      exact ⟨trivial, by omega⟩
    · rw [if_neg hd]
      have hds : (d :: rest1).takeWhile Char.isDigit = [] := by
        rw [List.takeWhile_cons, show d.isDigit = false from Bool.eq_false_iff.mpr hd]
        rfl
      rw [audioNumRest]
      rw [if_pos hds]
      rfl

lemma audio_roundtrip_aux : ∀ (fuel : Nat) (text : Str), text.length ≤ fuel →
    audioWf text = true →
    refillAudioNumbers (pickLoop text (splitAudioF text.length text).1 0) 0
      (replaceAudioF text.length text) = text := by
  intro fuel
  induction fuel with
  | zero =>
    intro text h1 _
    have : text = [] := List.eq_nil_of_length_eq_zero (Nat.le_zero.mp h1)
    subst this
    rfl
  | succ f ih =>
    intro text h1 hwf
    cases text with
    | nil => rfl
    | cons c rest =>
      rw [audioWf] at hwf
      simp only [List.length_cons] at h1 hwf ⊢
      rw [audioWfF] at hwf
      have hrl : rest.length ≤ f := by omega
      by_cases hc : c = audioMark
      · rw [if_pos hc] at hwf
        subst hc
        rw [Bool.and_eq_true] at hwf
        obtain ⟨hcond0, hwf2⟩ := hwf
        have hcond : rest.takeWhile Char.isDigit = [] ∨
            audioNumRest rest = rest.takeWhile isAzDigit := by
          have h2 := hcond0
          simp only [Bool.or_eq_true, decide_eq_true_eq] at h2
          exact h2
        have hpre : (audioMark :: audioNumRest rest) ++ rest.drop (audioNumRest rest).length
            = audioMark :: rest := by
          rw [List.cons_append, audioNumRest_prefix]
        have hrdlen : (rest.drop (audioNumRest rest).length).length ≤ rest.length := by
          rw [List.length_drop]
          omega
        have hsplit : splitAudioF (rest.length + 1) (audioMark :: rest)
            = ([] :: (splitAudioF (rest.drop (audioNumRest rest).length).length
                (rest.drop (audioNumRest rest).length)).1,
               (audioMark :: audioNumRest rest) ::
                (splitAudioF (rest.drop (audioNumRest rest).length).length
                  (rest.drop (audioNumRest rest).length)).2) := by
          rw [splitAudioF]
          dsimp only
          rw [if_pos rfl]
          rw [splitAudioF_fuel rest.length (rest.drop (audioNumRest rest).length).length
            (rest.drop (audioNumRest rest).length) hrdlen le_rfl]
        have hstrip : replaceAudioF (rest.length + 1) (audioMark :: rest)
            = audioMark :: replaceAudioF (rest.drop (audioNumRest rest).length).length
                (rest.drop (audioNumRest rest).length) := by
          rw [replaceAudioF]
          rw [if_pos rfl]
          rw [replaceAudioF_fuel rest.length (rest.drop (audioNumRest rest).length).length
            (rest.drop (audioNumRest rest).length) hrdlen le_rfl]
        rw [hsplit, hstrip]
        rw [pickLoop]
        rw [if_pos (by simp only [List.length_nil, List.length_cons, Nat.add_zero]; omega)]
        simp only [List.length_nil, Nat.add_zero]
        rw [pickNum_marker rest hcond]
        dsimp only
        have hshift : pickLoop (audioMark :: rest)
            (splitAudioF (rest.drop (audioNumRest rest).length).length
              (rest.drop (audioNumRest rest).length)).1
            (1 + (audioNumRest rest).length)
            = pickLoop (rest.drop (audioNumRest rest).length)
                (splitAudioF (rest.drop (audioNumRest rest).length).length
                  (rest.drop (audioNumRest rest).length)).1 0 := by
          conv_lhs => rw [← hpre]
          have harith : 1 + (audioNumRest rest).length
              = (audioMark :: audioNumRest rest).length + 0 := by
            simp only [List.length_cons]
            omega
          rw [harith, pickLoop_shift_pre]
        rw [hshift]
        rw [refillAudioNumbers]
        rw [if_pos rfl]
        rw [List.getElem?_cons_zero]
        rw [refill_shift]
        have hwf2f : audioWf (rest.drop (audioNumRest rest).length) = true := by
          rw [audioWf]
          rw [audioWfF_fuel (rest.drop (audioNumRest rest).length).length rest.length
            (rest.drop (audioNumRest rest).length) le_rfl hrdlen]
          exact hwf2
        rw [ih (rest.drop (audioNumRest rest).length) (le_trans hrdlen hrl) hwf2f]
        exact hpre
      · rw [if_neg hc] at hwf
        have hsplit : ∃ seg segs ms, splitAudioF rest.length rest = (seg :: segs, ms) := by
          cases hsp : splitAudioF rest.length rest with
          | mk a b =>
            cases a with
            | nil =>
              exact absurd (by rw [hsp] : (splitAudioF rest.length rest).1 = [])
                (splitAudioF_fst_ne rest.length rest)
            | cons seg segs => exact ⟨seg, segs, b, rfl⟩
        obtain ⟨seg, segs, ms, hsp⟩ := hsplit
        have hsplit2 : splitAudioF (rest.length + 1) (c :: rest) = ((c :: seg) :: segs, ms) := by
          rw [splitAudioF]
          dsimp only
          rw [if_neg hc, hsp]
        have hstrip : replaceAudioF (rest.length + 1) (c :: rest)
            = c :: replaceAudioF rest.length rest := by
          rw [replaceAudioF, if_neg hc]
        rw [hsplit2, hstrip]
        dsimp only
        have hpl : pickLoop (c :: rest) ((c :: seg) :: segs) 0
            = pickLoop rest (seg :: segs) 0 := by
          rw [pickLoop_head_len (c :: rest) (c :: seg) seg segs 0 1
            (by simp only [List.length_cons]; omega)]
          exact pickLoop_shift c rest (seg :: segs) 0
        rw [hpl]
        rw [refillAudioNumbers, if_neg hc]
        rw [show seg :: segs = (splitAudioF rest.length rest).1 from by rw [hsp]]
        rw [ih rest hrl hwf]

/-- Counterexample to C7: the input `"▷1ab"` has its marker followed only by
a digit and then characters drawn from digits and `a-z`, yet the round trip
returns `"▷1abb"`: the number scan of `pickAudioNumbers` consumes the whole
`[0-9a-z]` run (`1ab`), while the stripping regex `▷\\d+[a-z]?` removes only
`▷1a`, so the refilled text duplicates the leftover `b`. -/
theorem audio_roundtrip_counterexample :
    (∀ c ∈ "1ab".data, isAzDigit c = true) ∧
    refillAudioNumbers (pickAudioNumbers "▷1ab".data).1 0 (pickAudioNumbers "▷1ab".data).2 =
      "▷1abb".data ∧
    ¬refillAudioNumbers (pickAudioNumbers "▷1ab".data).1 0 (pickAudioNumbers "▷1ab".data).2 =
      "▷1ab".data := by
  refine ⟨?_, ?_, ?_⟩ <;> decide

/-- C7 (amended): for every text in which each `▷` marker followed by a
digit has its maximal `[0-9a-z]` run consist of digits plus at most one
trailing letter (so the scan and the stripping regex agree),
`refillAudioNumbers` starting at index 0 on the audios extracted by
`pickAudioNumbers` inverts the stripping and returns the original text. -/
theorem audio_roundtrip_spec (text : Str) (hwf : audioWf text = true) :
    refillAudioNumbers (pickAudioNumbers text).1 0 (pickAudioNumbers text).2 = text := by
  rw [pickAudioNumbers]
  dsimp only
  rw [splitAudio, replaceAudio]
  exact audio_roundtrip_aux text.length text le_rfl hwf

theorem audio_roundtrip_spec_witness :
    audioWf "pā▷12a x▷ y▷3".data = true ∧
    refillAudioNumbers (pickAudioNumbers "pā▷12a x▷ y▷3".data).1 0
      (pickAudioNumbers "pā▷12a x▷ y▷3".data).2 = "pā▷12a x▷ y▷3".data :=
  ⟨by decide, audio_roundtrip_spec ("pā▷12a x▷ y▷3".data) (by decide)⟩
